import Mathlib

/-
Verification of the in-memory LFU cache (src/in_memory_lfu.go).

Modeling conventions:
* Go maps are modeled as association lists with distinct keys
  (`alookup` / `ainsert` / `aerase`); the unspecified iteration order of a
  Go map is modeled by the order of the list (eviction picks the head of
  the minimum-frequency bucket; Update and the sweeper fold over the list).
* `time.Time` and `time.Duration` are modeled as `Int` (nanoseconds);
  each public operation receives the value of `time.Now()` as an explicit
  `now` argument.  `t.After(e)` is `e < t`.
* The `uint64` frequency counter is modeled as `Nat`; wraparound would need
  2^64 increments of a single key, so theorems quantify over operation
  sequences of length at most `maxUint64`, on which the two semantics agree.
* The `sync.Mutex` serializes all operations (including sweeper ticks), so
  a run of the cache is a sequence of atomic operations (`Op` / `run`).
* `interface{}` values are a type parameter `V`; the in-place mutation done
  by Update's callback is a function `V → V`.
-/

namespace LFU

/-! ### Association lists: the model of Go maps -/

def alookup {K A : Type} [DecidableEq K] (k : K) : List (K × A) → Option A
  | [] => none
  | p :: rest => if p.1 = k then some p.2 else alookup k rest

def ainsert {K A : Type} [DecidableEq K] (k : K) (a : A) : List (K × A) → List (K × A)
  | [] => [(k, a)]
  | p :: rest => if p.1 = k then (k, a) :: rest else p :: ainsert k a rest

def aerase {K A : Type} [DecidableEq K] (k : K) : List (K × A) → List (K × A)
  | [] => []
  | p :: rest => if p.1 = k then rest else p :: aerase k rest

theorem alookup_ainsert_self {K A : Type} [DecidableEq K] (k : K) (a : A) (l : List (K × A)) :
    alookup k (ainsert k a l) = some a := by
  induction l with
  | nil => simp [ainsert, alookup]
  | cons p rest ih =>
    by_cases h : p.1 = k <;> simp [ainsert, alookup, h, ih]

theorem alookup_ainsert_ne {K A : Type} [DecidableEq K] {k' k : K} (a : A) (l : List (K × A))
    (h : k' ≠ k) : alookup k' (ainsert k a l) = alookup k' l := by
  have hne : k ≠ k' := fun hh => h hh.symm
  induction l with
  | nil => simp [ainsert, alookup, hne]
  | cons p rest ih =>
    by_cases hp : p.1 = k
    · subst hp
      simp [ainsert, alookup, hne]
    · simp [ainsert, alookup, hp, ih]

theorem alookup_ainsert {K A : Type} [DecidableEq K] (k' k : K) (a : A) (l : List (K × A)) :
    alookup k' (ainsert k a l) = if k = k' then some a else alookup k' l := by
  by_cases h : k = k'
  · subst h; simp [alookup_ainsert_self]
  · simp [h, alookup_ainsert_ne a l (fun hh => h hh.symm)]

theorem alookup_aerase_ne {K A : Type} [DecidableEq K] {k' k : K} (l : List (K × A))
    (h : k' ≠ k) : alookup k' (aerase k l) = alookup k' l := by
  have hne : k ≠ k' := fun hh => h hh.symm
  induction l with
  | nil => simp [aerase]
  | cons p rest ih =>
    by_cases hp : p.1 = k
    · subst hp
      simp [aerase, alookup, hne]
    · simp [aerase, alookup, hp, ih]

theorem alookup_eq_none_iff {K A : Type} [DecidableEq K] (k : K) (l : List (K × A)) :
    alookup k l = none ↔ k ∉ l.map Prod.fst := by
  induction l with
  | nil => simp [alookup]
  | cons p rest ih =>
    by_cases hp : p.1 = k
    · subst hp; simp [alookup]
    · have hkp : k ≠ p.1 := fun hh => hp hh.symm
      simp [alookup, hp, ih, hkp]

theorem alookup_aerase_self {K A : Type} [DecidableEq K] (k : K) (l : List (K × A))
    (hnd : (l.map Prod.fst).Nodup) : alookup k (aerase k l) = none := by
  induction l with
  | nil => simp [aerase, alookup]
  | cons p rest ih =>
    rw [List.map_cons, List.nodup_cons] at hnd
    by_cases hp : p.1 = k
    · subst hp
      simp only [aerase, if_pos rfl]
      exact (alookup_eq_none_iff _ _).2 hnd.1
    · simp [aerase, alookup, hp, ih hnd.2]

theorem alookup_mem {K A : Type} [DecidableEq K] {k : K} {a : A} {l : List (K × A)}
    (h : alookup k l = some a) : (k, a) ∈ l := by
  induction l with
  | nil => simp [alookup] at h
  | cons p rest ih =>
    simp only [alookup] at h
    split at h
    · rename_i heq
      injection h with h2
      subst heq; subst h2
      exact List.mem_cons_self _ _
    · exact List.mem_cons_of_mem _ (ih h)

theorem alookup_of_mem_nodup {K A : Type} [DecidableEq K] {k : K} {a : A} {l : List (K × A)}
    (hnd : (l.map Prod.fst).Nodup) (h : (k, a) ∈ l) : alookup k l = some a := by
  induction l with
  | nil => simp at h
  | cons p rest ih =>
    rw [List.map_cons, List.nodup_cons] at hnd
    rcases List.mem_cons.1 h with h | h
    · subst h; simp [alookup]
    · have hk : k ∈ rest.map Prod.fst := List.mem_map.2 ⟨(k, a), h, rfl⟩
      have hp : p.1 ≠ k := fun hh => hnd.1 (hh ▸ hk)
      simp only [alookup, if_neg hp]
      exact ih hnd.2 h

theorem alookup_isSome_of_mem_fst {K A : Type} [DecidableEq K] {k : K} {l : List (K × A)}
    (h : k ∈ l.map Prod.fst) : ∃ a, alookup k l = some a := by
  cases ha : alookup k l with
  | none => exact absurd h ((alookup_eq_none_iff _ _).1 ha)
  | some a => exact ⟨a, rfl⟩

theorem mem_fst_of_alookup {K A : Type} [DecidableEq K] {k : K} {a : A} {l : List (K × A)}
    (h : alookup k l = some a) : k ∈ l.map Prod.fst :=
  List.mem_map.2 ⟨(k, a), alookup_mem h, rfl⟩

theorem mem_fst_ainsert {K A : Type} [DecidableEq K] (x k : K) (a : A) (l : List (K × A)) :
    x ∈ (ainsert k a l).map Prod.fst ↔ x = k ∨ x ∈ l.map Prod.fst := by
  induction l with
  | nil => simp [ainsert]
  | cons p rest ih =>
    by_cases hp : p.1 = k
    · subst hp
      have hins : ainsert p.1 a (p :: rest) = (p.1, a) :: rest := by
        simp [ainsert]
      rw [hins]
      simp only [List.map_cons, List.mem_cons]
      tauto
    · simp only [ainsert, if_neg hp, List.map_cons, List.mem_cons, ih]
      tauto

theorem mem_fst_aerase {K A : Type} [DecidableEq K] {x k : K} {l : List (K × A)}
    (h : x ∈ (aerase k l).map Prod.fst) : x ∈ l.map Prod.fst := by
  induction l with
  | nil => simp [aerase] at h
  | cons p rest ih =>
    by_cases hp : p.1 = k
    · simp only [aerase, if_pos hp] at h
      simp [h]
    · simp only [aerase, if_neg hp, List.map_cons, List.mem_cons] at h ⊢
      tauto

theorem nodup_fst_ainsert {K A : Type} [DecidableEq K] (k : K) (a : A) {l : List (K × A)}
    (hnd : (l.map Prod.fst).Nodup) : ((ainsert k a l).map Prod.fst).Nodup := by
  induction l with
  | nil => simp [ainsert]
  | cons p rest ih =>
    rw [List.map_cons, List.nodup_cons] at hnd
    by_cases hp : p.1 = k
    · subst hp; simpa [ainsert] using hnd
    · rw [ainsert, if_neg hp, List.map_cons, List.nodup_cons]
      refine ⟨fun hmem => ?_, ih hnd.2⟩
      rcases (mem_fst_ainsert _ _ _ _).1 hmem with h | h
      · exact hp h
      · exact hnd.1 h

theorem nodup_fst_aerase {K A : Type} [DecidableEq K] (k : K) {l : List (K × A)}
    (hnd : (l.map Prod.fst).Nodup) : ((aerase k l).map Prod.fst).Nodup := by
  induction l with
  | nil => simp [aerase]
  | cons p rest ih =>
    rw [List.map_cons, List.nodup_cons] at hnd
    by_cases hp : p.1 = k
    · rw [aerase, if_pos hp]; exact hnd.2
    · rw [aerase, if_neg hp, List.map_cons, List.nodup_cons]
      exact ⟨fun hmem => hnd.1 (mem_fst_aerase hmem), ih hnd.2⟩

theorem length_ainsert_none {K A : Type} [DecidableEq K] (k : K) (a : A) {l : List (K × A)}
    (h : alookup k l = none) : (ainsert k a l).length = l.length + 1 := by
  induction l with
  | nil => simp [ainsert]
  | cons p rest ih =>
    simp only [alookup] at h
    by_cases hp : p.1 = k
    · simp [hp] at h
    · rw [if_neg hp] at h
      simp [ainsert, hp, ih h]

theorem length_ainsert_some {K A : Type} [DecidableEq K] (k : K) (a : A) {l : List (K × A)}
    {a' : A} (h : alookup k l = some a') : (ainsert k a l).length = l.length := by
  induction l with
  | nil => simp [alookup] at h
  | cons p rest ih =>
    simp only [alookup] at h
    by_cases hp : p.1 = k
    · simp [ainsert, hp]
    · rw [if_neg hp] at h
      simp [ainsert, hp, ih h]

theorem length_aerase_some {K A : Type} [DecidableEq K] (k : K) {l : List (K × A)}
    {a' : A} (h : alookup k l = some a') : (aerase k l).length + 1 = l.length := by
  induction l with
  | nil => simp [alookup] at h
  | cons p rest ih =>
    simp only [alookup] at h
    by_cases hp : p.1 = k
    · simp [aerase, hp]
    · rw [if_neg hp] at h
      simp [aerase, hp, ih h]

theorem ainsert_ainsert {K A : Type} [DecidableEq K] (k : K) (a b : A) (l : List (K × A)) :
    ainsert k a (ainsert k b l) = ainsert k a l := by
  induction l with
  | nil => simp [ainsert]
  | cons p rest ih =>
    by_cases hp : p.1 = k
    · simp [ainsert, hp]
    · simp [ainsert, hp, ih]

/-! ### Key sets (the inner `map[string]struct\x7b\x7d` of a frequency bucket) -/

/-- Adding a key to a bucket: `c.freqGroup[f][key] = struct\x7b\x7d\x7b\x7d`. -/
def baddKey (key : String) (b : List String) : List String :=
  if key ∈ b then b else b ++ [key]

theorem mem_baddKey (x key : String) (b : List String) :
    x ∈ baddKey key b ↔ x = key ∨ x ∈ b := by
  unfold baddKey
  split
  · rename_i h
    constructor
    · tauto
    · rintro (rfl | hx)
      · exact h
      · exact hx
  · simp [or_comm]

theorem nodup_baddKey (key : String) {b : List String} (hnd : b.Nodup) :
    (baddKey key b).Nodup := by
  unfold baddKey
  split
  · exact hnd
  · rename_i h
    simp [List.nodup_append, hnd, h]

theorem baddKey_ne_nil (key : String) (b : List String) : baddKey key b ≠ [] := by
  unfold baddKey
  split
  · rename_i h
    exact fun hb => by simp [hb] at h
  · simp

/-! ### The cache data model (src/in_memory_lfu.go) -/

/-- Go struct `Item`: value, expiration timestamp, access frequency. -/
structure Item (V : Type) where
  Value : V
  Expiration : Int
  Frequency : Nat
deriving Repr, DecidableEq

/-- Go struct `InMemoryCache` (the `sync.Mutex` is the serialization of
operations into a trace and has no data content). -/
structure InMemoryCache (V : Type) where
  items : List (String × Item V)
  freqGroup : List (Nat × List String)
  minFreq : Nat
  defaultExpiration : Int
  cleanupInterval : Int
  size : Int
deriving Repr, DecidableEq

/-- `func (i Item) isExpired() bool \x7b return time.Now().After(i.Expiration) \x7d` -/
def Item.isExpired {V : Type} (i : Item V) (now : Int) : Bool :=
  decide (i.Expiration < now)

/-- The keys currently in the bucket at frequency `f` (`c.freqGroup[f]`;
a missing bucket reads as the empty set, as a nil Go map does). -/
def keysAt {V : Type} (c : InMemoryCache V) (f : Nat) : List String :=
  (alookup f c.freqGroup).getD []

/-- `func NewInMemoryCache` (the goroutine `startGC` is not part of the state;
sweeper ticks appear as trace operations). -/
def NewInMemoryCache (V : Type) (size : Int) (defaultExpiration cleanupInterval : Int) :
    InMemoryCache V :=
  { items := []
    freqGroup := []
    minFreq := 1
    defaultExpiration := defaultExpiration
    cleanupInterval := cleanupInterval
    size := size }

/-- `func (c *InMemoryCache) getExp(duration time.Duration) time.Time` -/
def getExp {V : Type} (c : InMemoryCache V) (now duration : Int) : Int :=
  if duration ≤ 0 then now + c.defaultExpiration else now + duration

/-- `func (c *InMemoryCache) deleteItemInGroup(item Item, key string) (minChanged bool)`:
remove `key` from the bucket at `item.Frequency` (`delete` on a missing bucket
reads it as empty); if the bucket becomes empty, drop it and report whether it
was the minimum.  The source reads only `item.Frequency` from `item`. -/
def deleteItemInGroup {V : Type} (c : InMemoryCache V) (item : Item V) (key : String) :
    InMemoryCache V × Bool :=
  if (keysAt c item.Frequency).erase key = [] then
    ({ c with freqGroup := aerase item.Frequency c.freqGroup },
      c.minFreq == item.Frequency)
  else
    ({ c with
        freqGroup :=
          ainsert item.Frequency ((keysAt c item.Frequency).erase key) c.freqGroup },
      false)

/-- `if c.deleteItemInGroup(item, key) \x7b c.minFreq = newFreq \x7d`
(`newFreq = f + 1` for the `f` of the item being bumped). -/
def bumpMin {V : Type} (res : InMemoryCache V × Bool) (f : Nat) : InMemoryCache V :=
  if res.2 then { res.1 with minFreq := f + 1 } else res.1

/-- The tail of `upgradeItem`: ensure the bucket at `item.Frequency + 1` exists,
put `key` into it, and store the bumped item (`c.items[key] = item`). -/
def bumpInsert {V : Type} (c : InMemoryCache V) (item : Item V) (key : String) :
    InMemoryCache V :=
  { c with
    freqGroup :=
      ainsert (item.Frequency + 1) (baddKey key (keysAt c (item.Frequency + 1))) c.freqGroup,
    items := ainsert key ⟨item.Value, item.Expiration, item.Frequency + 1⟩ c.items }

/-- `func (c *InMemoryCache) upgradeItem(item Item, key string)`, as the
sequence of its statements: store the item (`c.items[key] = item`), remove the
key from its old bucket, adjust `minFreq` if that emptied the minimum bucket,
and insert the key at frequency `item.Frequency + 1`. -/
def upgradeItem {V : Type} (c : InMemoryCache V) (item : Item V) (key : String) :
    InMemoryCache V :=
  bumpInsert
    (bumpMin (deleteItemInGroup { c with items := ainsert key item c.items } item key)
      item.Frequency)
    item key

/-- The eviction block of `Set` (`if len(c.items) >= c.size \x7b ... \x7d`):
when the store is at or above capacity, the loop body runs for the first key
of the minimum-frequency bucket (the list order stands in for Go's unspecified
map iteration order) and `break`s; a missing key in `c.items` reads as the
zero `Item` (only its zero `Frequency` is used).  An empty or missing minimum
bucket makes the loop run zero times. -/
def evictIfFull {V : Type} [Inhabited V] (c : InMemoryCache V) : InMemoryCache V :=
  if c.size ≤ (c.items.length : Int) then
    match keysAt c c.minFreq with
    | [] => c
    | keyToDelete :: _ =>
      let itemD := (alookup keyToDelete c.items).getD ⟨default, 0, 0⟩
      let c' := (deleteItemInGroup c itemD keyToDelete).1
      { c' with items := aerase keyToDelete c'.items }
  else c

/-- `func (c *InMemoryCache) Set(key string, value interface\x7b\x7d, duration time.Duration)` -/
def Set {V : Type} [Inhabited V] (c : InMemoryCache V) (now : Int) (key : String) (value : V)
    (duration : Int) : InMemoryCache V :=
  if c.size ≤ 0 then c
  else
    let newItem : Item V := ⟨value, getExp c now duration, 0⟩
    match alookup key c.items with
    | some old => upgradeItem c { newItem with Frequency := old.Frequency } key
    | none =>
      let c1 : InMemoryCache V := evictIfFull c
      let c2 : InMemoryCache V :=
        { c1 with freqGroup := ainsert 0 [key] c1.freqGroup, minFreq := 0 }
      upgradeItem c2 newItem key

/-- `func (c *InMemoryCache) Get(key string) (interface\x7b\x7d, bool)`;
the `(nil, false)` result is `none`, `(v, true)` is `some v`. -/
def Get {V : Type} (c : InMemoryCache V) (now : Int) (key : String) :
    InMemoryCache V × Option V :=
  match alookup key c.items with
  | none => (c, none)
  | some item =>
    if item.isExpired now then (c, none)
    else (upgradeItem c item key, some item.Value)

/-- `func (c *InMemoryCache) findNewMinFreq() uint64` -/
def maxUint64 : Nat := 2 ^ 64 - 1

def findNewMinFreq {V : Type} (c : InMemoryCache V) : Nat :=
  c.freqGroup.foldl (fun minFreq p => if minFreq > p.1 then p.1 else minFreq) maxUint64

/-- `func (c *InMemoryCache) Delete(key string) error`;
the `errors.New("Key not found")` result is `false`, success is `true`. -/
def Delete {V : Type} (c : InMemoryCache V) (key : String) : InMemoryCache V × Bool :=
  match alookup key c.items with
  | none => (c, false)
  | some item =>
    let c1 : InMemoryCache V := { c with items := aerase key c.items }
    let res := deleteItemInGroup c1 item key
    if res.2 then ({ res.1 with minFreq := findNewMinFreq res.1 }, true)
    else (res.1, true)

/-- `func (c *InMemoryCache) Update(isUpdated func(v interface\x7b\x7d) bool,
update func(v interface\x7b\x7d), duration time.Duration)`.  The range over
`c.items` folds over the entry list; the in-place mutation `update(item.Value)`
is the functional `Value := update item.Value`. -/
def Update {V : Type} (c : InMemoryCache V) (now : Int) (isUpdated : V → Bool)
    (update : V → V) (duration : Int) : InMemoryCache V :=
  let exp := getExp c now duration
  c.items.foldl
    (fun acc p =>
      if isUpdated p.2.Value && !(p.2.isExpired now) then
        upgradeItem acc { p.2 with Value := update p.2.Value, Expiration := exp } p.1
      else acc)
    c

/-- One tick of `func (c *InMemoryCache) startGC()` (the body of the
`time.Tick` loop, which runs under the lock). -/
def sweepTick {V : Type} (c : InMemoryCache V) (now : Int) : InMemoryCache V :=
  let res :=
    c.items.foldl
      (fun (acc : InMemoryCache V × Bool) p =>
        if p.2.isExpired now then
          let c1 : InMemoryCache V := { acc.1 with items := aerase p.1 acc.1.items }
          let r := deleteItemInGroup c1 p.2 p.1
          (r.1, r.2 || acc.2)
        else acc)
      (c, false)
  if res.2 then { res.1 with minFreq := findNewMinFreq res.1 } else res.1

/-! ### Traces of public operations -/

/-- A public operation, with the value of `time.Now()` it observes. -/
inductive Op (V : Type) where
  | set (now : Int) (key : String) (value : V) (duration : Int)
  | get (now : Int) (key : String)
  | delete (key : String)
  | update (now : Int) (isUpdated : V → Bool) (update : V → V) (duration : Int)
  | sweep (now : Int)

def applyOp {V : Type} [Inhabited V] (c : InMemoryCache V) : Op V → InMemoryCache V
  | .set now key value duration => Set c now key value duration
  | .get now key => (Get c now key).1
  | .delete key => (Delete c key).1
  | .update now isUpdated update duration => Update c now isUpdated update duration
  | .sweep now => sweepTick c now

def run {V : Type} [Inhabited V] (c : InMemoryCache V) (ops : List (Op V)) : InMemoryCache V :=
  ops.foldl applyOp c

/-! ### More map lemmas -/

theorem alookup_ainsert_cases {K A : Type} [DecidableEq K] {k' k : K} {a : A} {l : List (K × A)}
    {x : A} (h : alookup k' (ainsert k a l) = some x) :
    (k = k' ∧ x = a) ∨ (k ≠ k' ∧ alookup k' l = some x) := by
  rw [alookup_ainsert] at h
  by_cases hk : k = k'
  · rw [if_pos hk] at h
    exact Or.inl ⟨hk, (Option.some_inj.1 h).symm⟩
  · rw [if_neg hk] at h
    exact Or.inr ⟨hk, h⟩

theorem alookup_aerase_cases {K A : Type} [DecidableEq K] {k' k : K} {l : List (K × A)}
    {x : A} (hnd : (l.map Prod.fst).Nodup) (h : alookup k' (aerase k l) = some x) :
    k' ≠ k ∧ alookup k' l = some x := by
  by_cases hk : k' = k
  · subst hk
    rw [alookup_aerase_self _ _ hnd] at h
    cases h
  · exact ⟨hk, by rw [← alookup_aerase_ne l hk]; exact h⟩

/-! ### The invariant -/

/-- The structural invariant tying `items`, `freqGroup` and `minFreq` together:
distinct keys, every stored bucket is a nonempty set, a key is in exactly the
bucket of its current frequency, every stored frequency is at least 1, and
`minFreq` is the least nonempty bucket index whenever the store is nonempty. -/
structure Inv0 {V : Type} (c : InMemoryCache V) : Prop where
  itemsNodup : (c.items.map Prod.fst).Nodup
  fgNodup : (c.freqGroup.map Prod.fst).Nodup
  bucketNodup : ∀ f b, alookup f c.freqGroup = some b → b.Nodup
  noEmpty : ∀ f b, alookup f c.freqGroup = some b → b ≠ []
  memIff : ∀ k f, k ∈ keysAt c f ↔ ∃ i, alookup k c.items = some i ∧ i.Frequency = f
  freqPos : ∀ k i, alookup k c.items = some i → 1 ≤ i.Frequency
  minOk : c.items ≠ [] → keysAt c c.minFreq ≠ [] ∧ ∀ f, keysAt c f ≠ [] → c.minFreq ≤ f

/-- The full invariant after `n` operations: `Inv0` plus the capacity bound and
the fact that `n` bounds every stored frequency (so the `uint64` counter cannot
have wrapped and the `maxUint64` sentinel of `findNewMinFreq` is sound). -/
structure Inv {V : Type} (n : Nat) (c : InMemoryCache V) extends Inv0 c : Prop where
  freqLe : ∀ k i, alookup k c.items = some i → i.Frequency ≤ n
  sizeBound : 0 < c.size → (c.items.length : Int) ≤ c.size

theorem Inv.mono {V : Type} {n m : Nat} {c : InMemoryCache V} (h : Inv n c) (hnm : n ≤ m) :
    Inv m c :=
  { h with freqLe := fun k i hk => le_trans (h.freqLe k i hk) hnm }

theorem keysAt_nodup {V : Type} {c : InMemoryCache V}
    (hb : ∀ f b, alookup f c.freqGroup = some b → b.Nodup) (f : Nat) : (keysAt c f).Nodup := by
  unfold keysAt
  cases h : alookup f c.freqGroup with
  | none => simp
  | some b => simpa using hb f b h

theorem keysAt_eq_some {V : Type} {c : InMemoryCache V} {f : Nat}
    (h : keysAt c f ≠ []) : alookup f c.freqGroup = some (keysAt c f) := by
  unfold keysAt at h ⊢
  cases ha : alookup f c.freqGroup with
  | none => simp [ha] at h
  | some b => simp [ha]

/-! ### Characterizations of `upgradeItem` -/

theorem deleteItemInGroup_eq_empty {V : Type} {c : InMemoryCache V} {item : Item V}
    {key : String} (hE : (keysAt c item.Frequency).erase key = []) :
    deleteItemInGroup c item key
      = ({ c with freqGroup := aerase item.Frequency c.freqGroup },
          c.minFreq == item.Frequency) := by
  unfold deleteItemInGroup
  rw [if_pos hE]

theorem deleteItemInGroup_eq_kept {V : Type} {c : InMemoryCache V} {item : Item V}
    {key : String} (hE : (keysAt c item.Frequency).erase key ≠ []) :
    deleteItemInGroup c item key
      = ({ c with
            freqGroup :=
              ainsert item.Frequency ((keysAt c item.Frequency).erase key) c.freqGroup },
          false) := by
  unfold deleteItemInGroup
  rw [if_neg hE]

theorem upgradeItem_eq_A1 {V : Type} {c : InMemoryCache V} {item : Item V} {key : String}
    (hE : (keysAt c item.Frequency).erase key = [])
    (hMF : c.minFreq = item.Frequency) :
    upgradeItem c item key
      = { c with
          items := ainsert key ⟨item.Value, item.Expiration, item.Frequency + 1⟩ c.items,
          freqGroup := ainsert (item.Frequency + 1)
            (baddKey key (keysAt c (item.Frequency + 1))) (aerase item.Frequency c.freqGroup),
          minFreq := item.Frequency + 1 } := by
  have hE' : (keysAt { c with items := ainsert key item c.items } item.Frequency).erase key
      = [] := hE
  have hb : (c.minFreq == item.Frequency) = true := by simpa using hMF
  unfold upgradeItem
  rw [deleteItemInGroup_eq_empty hE']
  simp only [bumpMin, bumpInsert, hb, if_true, keysAt]
  rw [alookup_aerase_ne _ (Nat.succ_ne_self item.Frequency)]
  simp [ainsert_ainsert, keysAt]

theorem upgradeItem_eq_A2 {V : Type} {c : InMemoryCache V} {item : Item V} {key : String}
    (hE : (keysAt c item.Frequency).erase key = [])
    (hMF : c.minFreq ≠ item.Frequency) :
    upgradeItem c item key
      = { c with
          items := ainsert key ⟨item.Value, item.Expiration, item.Frequency + 1⟩ c.items,
          freqGroup := ainsert (item.Frequency + 1)
            (baddKey key (keysAt c (item.Frequency + 1)))
            (aerase item.Frequency c.freqGroup) } := by
  have hE' : (keysAt { c with items := ainsert key item c.items } item.Frequency).erase key
      = [] := hE
  have hb : (c.minFreq == item.Frequency) = false := by simpa using hMF
  unfold upgradeItem
  rw [deleteItemInGroup_eq_empty hE']
  simp only [bumpMin, bumpInsert, hb, if_false, Bool.false_eq_true, ite_false, keysAt]
  rw [alookup_aerase_ne _ (Nat.succ_ne_self item.Frequency)]
  simp [ainsert_ainsert, keysAt]

theorem upgradeItem_eq_B {V : Type} {c : InMemoryCache V} {item : Item V} {key : String}
    (hE : (keysAt c item.Frequency).erase key ≠ []) :
    upgradeItem c item key
      = { c with
          items := ainsert key ⟨item.Value, item.Expiration, item.Frequency + 1⟩ c.items,
          freqGroup := ainsert (item.Frequency + 1)
            (baddKey key (keysAt c (item.Frequency + 1)))
            (ainsert item.Frequency ((keysAt c item.Frequency).erase key) c.freqGroup) } := by
  have hE' : (keysAt { c with items := ainsert key item c.items } item.Frequency).erase key
      ≠ [] := hE
  unfold upgradeItem
  rw [deleteItemInGroup_eq_kept hE']
  simp only [bumpMin, bumpInsert, Bool.false_eq_true, ite_false, keysAt]
  rw [alookup_ainsert_ne _ _ (Nat.succ_ne_self item.Frequency)]
  simp [ainsert_ainsert, keysAt]

theorem upgradeItem_items {V : Type} (c : InMemoryCache V) (item : Item V) (key : String) :
    (upgradeItem c item key).items
      = ainsert key ⟨item.Value, item.Expiration, item.Frequency + 1⟩ c.items := by
  by_cases hE : (keysAt c item.Frequency).erase key = []
  · by_cases hMF : c.minFreq = item.Frequency
    · rw [upgradeItem_eq_A1 hE hMF]
    · rw [upgradeItem_eq_A2 hE hMF]
  · rw [upgradeItem_eq_B hE]

theorem upgradeItem_fields {V : Type} (c : InMemoryCache V) (item : Item V) (key : String) :
    (upgradeItem c item key).size = c.size
      ∧ (upgradeItem c item key).defaultExpiration = c.defaultExpiration
      ∧ (upgradeItem c item key).cleanupInterval = c.cleanupInterval := by
  by_cases hE : (keysAt c item.Frequency).erase key = []
  · by_cases hMF : c.minFreq = item.Frequency
    · rw [upgradeItem_eq_A1 hE hMF]; exact ⟨rfl, rfl, rfl⟩
    · rw [upgradeItem_eq_A2 hE hMF]; exact ⟨rfl, rfl, rfl⟩
  · rw [upgradeItem_eq_B hE]; exact ⟨rfl, rfl, rfl⟩

theorem upgradeItem_keysAt {V : Type} (c : InMemoryCache V) (item : Item V) (key : String)
    (hfgNodup : (c.freqGroup.map Prod.fst).Nodup) (g : Nat) :
    keysAt (upgradeItem c item key) g
      = if g = item.Frequency + 1 then baddKey key (keysAt c (item.Frequency + 1))
        else if g = item.Frequency then (keysAt c item.Frequency).erase key
        else keysAt c g := by
  by_cases hg1 : g = item.Frequency + 1
  · subst hg1
    rw [if_pos rfl]
    by_cases hE : (keysAt c item.Frequency).erase key = []
    · by_cases hMF : c.minFreq = item.Frequency
      · rw [upgradeItem_eq_A1 hE hMF]
        simp [keysAt, alookup_ainsert_self]
      · rw [upgradeItem_eq_A2 hE hMF]
        simp [keysAt, alookup_ainsert_self]
    · rw [upgradeItem_eq_B hE]
      simp [keysAt, alookup_ainsert_self]
  · rw [if_neg hg1]
    by_cases hg2 : g = item.Frequency
    · subst hg2
      rw [if_pos rfl]
      by_cases hE : (keysAt c item.Frequency).erase key = []
      · by_cases hMF : c.minFreq = item.Frequency
        · rw [upgradeItem_eq_A1 hE hMF]
          simp only [keysAt]
          rw [alookup_ainsert_ne _ _ hg1, alookup_aerase_self _ _ hfgNodup]
          simp only [Option.getD_none]
          exact hE.symm
        · rw [upgradeItem_eq_A2 hE hMF]
          simp only [keysAt]
          rw [alookup_ainsert_ne _ _ hg1, alookup_aerase_self _ _ hfgNodup]
          simp only [Option.getD_none]
          exact hE.symm
      · rw [upgradeItem_eq_B hE]
        simp only [keysAt]
        rw [alookup_ainsert_ne _ _ hg1, alookup_ainsert_self]
        simp
    · rw [if_neg hg2]
      by_cases hE : (keysAt c item.Frequency).erase key = []
      · by_cases hMF : c.minFreq = item.Frequency
        · rw [upgradeItem_eq_A1 hE hMF]
          simp only [keysAt]
          rw [alookup_ainsert_ne _ _ hg1, alookup_aerase_ne _ hg2]
        · rw [upgradeItem_eq_A2 hE hMF]
          simp only [keysAt]
          rw [alookup_ainsert_ne _ _ hg1, alookup_aerase_ne _ hg2]
      · rw [upgradeItem_eq_B hE]
        simp only [keysAt]
        rw [alookup_ainsert_ne _ _ hg1, alookup_ainsert_ne _ _ hg2]

theorem upgradeItem_fg_emptied {V : Type} {c : InMemoryCache V} {item : Item V} {key : String}
    (hE : (keysAt c item.Frequency).erase key = []) :
    (upgradeItem c item key).freqGroup
      = ainsert (item.Frequency + 1) (baddKey key (keysAt c (item.Frequency + 1)))
        (aerase item.Frequency c.freqGroup) := by
  by_cases hMF : c.minFreq = item.Frequency
  · rw [upgradeItem_eq_A1 hE hMF]
  · rw [upgradeItem_eq_A2 hE hMF]

theorem upgradeItem_noEmpty {V : Type} {c : InMemoryCache V} (item : Item V) (key : String)
    (hfgNodup : (c.freqGroup.map Prod.fst).Nodup)
    (hNoEmpty : ∀ f b, alookup f c.freqGroup = some b → b ≠ []) :
    ∀ f b, alookup f (upgradeItem c item key).freqGroup = some b → b ≠ [] := by
  intro g b hg
  by_cases hE : (keysAt c item.Frequency).erase key = []
  · rw [upgradeItem_fg_emptied hE] at hg
    rcases alookup_ainsert_cases hg with ⟨hfe, rfl⟩ | ⟨hne, hg2⟩
    · exact baddKey_ne_nil _ _
    · exact hNoEmpty g b (alookup_aerase_cases hfgNodup hg2).2
  · rw [upgradeItem_eq_B hE] at hg
    rcases alookup_ainsert_cases hg with ⟨hfe, rfl⟩ | ⟨hne, hg2⟩
    · exact baddKey_ne_nil _ _
    · rcases alookup_ainsert_cases hg2 with ⟨hfe2, rfl⟩ | ⟨hne2, hg3⟩
      · exact hE
      · exact hNoEmpty g b hg3

theorem upgradeItem_bucketNodup {V : Type} {c : InMemoryCache V} (item : Item V) (key : String)
    (hfgNodup : (c.freqGroup.map Prod.fst).Nodup)
    (hbNodup : ∀ f b, alookup f c.freqGroup = some b → b.Nodup) :
    ∀ f b, alookup f (upgradeItem c item key).freqGroup = some b → b.Nodup := by
  intro g b hg
  have hkeys : keysAt (upgradeItem c item key) g = b := by
    unfold keysAt; rw [hg]; rfl
  rw [upgradeItem_keysAt c item key hfgNodup g] at hkeys
  by_cases hg1 : g = item.Frequency + 1
  · rw [if_pos hg1] at hkeys
    rw [← hkeys]
    exact nodup_baddKey _ (keysAt_nodup hbNodup _)
  · rw [if_neg hg1] at hkeys
    by_cases hg2 : g = item.Frequency
    · rw [if_pos hg2] at hkeys
      rw [← hkeys]
      exact (keysAt_nodup hbNodup _).erase _
    · rw [if_neg hg2] at hkeys
      rw [← hkeys]
      exact keysAt_nodup hbNodup g

theorem upgradeItem_fgNodup {V : Type} {c : InMemoryCache V} (item : Item V) (key : String)
    (hfgNodup : (c.freqGroup.map Prod.fst).Nodup) :
    ((upgradeItem c item key).freqGroup.map Prod.fst).Nodup := by
  by_cases hE : (keysAt c item.Frequency).erase key = []
  · rw [upgradeItem_fg_emptied hE]
    exact nodup_fst_ainsert _ _ (nodup_fst_aerase _ hfgNodup)
  · rw [upgradeItem_eq_B hE]
    exact nodup_fst_ainsert _ _ (nodup_fst_ainsert _ _ hfgNodup)

theorem upgradeItem_mem_key {V : Type} {c : InMemoryCache V} {item : Item V} {key : String}
    (hfgNodup : (c.freqGroup.map Prod.fst).Nodup)
    (hbNodup : ∀ f b, alookup f c.freqGroup = some b → b.Nodup)
    (hKeyBucket : ∀ f, key ∈ keysAt c f ↔ f = item.Frequency) :
    ∀ g, key ∈ keysAt (upgradeItem c item key) g ↔ g = item.Frequency + 1 := by
  intro g
  rw [upgradeItem_keysAt c item key hfgNodup g]
  by_cases hg1 : g = item.Frequency + 1
  · simp [hg1, mem_baddKey]
  · rw [if_neg hg1]
    by_cases hg2 : g = item.Frequency
    · rw [if_pos hg2]
      constructor
      · intro hmem
        have := ((keysAt_nodup hbNodup item.Frequency).mem_erase_iff).1 hmem
        exact absurd rfl this.1
      · intro h
        exact absurd h hg1
    · rw [if_neg hg2]
      rw [hKeyBucket g]
      exact ⟨fun h => absurd h hg2, fun h => absurd h hg1⟩

theorem upgradeItem_mem_other {V : Type} {c : InMemoryCache V} {item : Item V} {key : String}
    (hfgNodup : (c.freqGroup.map Prod.fst).Nodup)
    (hbNodup : ∀ f b, alookup f c.freqGroup = some b → b.Nodup) :
    ∀ k g, k ≠ key → (k ∈ keysAt (upgradeItem c item key) g ↔ k ∈ keysAt c g) := by
  intro k g hk
  rw [upgradeItem_keysAt c item key hfgNodup g]
  by_cases hg1 : g = item.Frequency + 1
  · subst hg1
    rw [if_pos rfl, mem_baddKey]
    simp [hk]
  · rw [if_neg hg1]
    by_cases hg2 : g = item.Frequency
    · subst hg2
      rw [if_pos rfl, (keysAt_nodup hbNodup _).mem_erase_iff]
      simp [hk]
    · rw [if_neg hg2]

theorem upgradeItem_minOk {V : Type} {c : InMemoryCache V} {item : Item V} {key : String}
    (hfgNodup : (c.freqGroup.map Prod.fst).Nodup)
    (hKeyB : key ∈ keysAt c item.Frequency)
    (hMin : keysAt c c.minFreq ≠ [] ∧ ∀ f, keysAt c f ≠ [] → c.minFreq ≤ f) :
    keysAt (upgradeItem c item key) (upgradeItem c item key).minFreq ≠ []
      ∧ ∀ f, keysAt (upgradeItem c item key) f ≠ []
          → (upgradeItem c item key).minFreq ≤ f := by
  have hBne : keysAt c item.Frequency ≠ [] := List.ne_nil_of_mem hKeyB
  have hMinLe : c.minFreq ≤ item.Frequency := hMin.2 item.Frequency hBne
  have hK := upgradeItem_keysAt c item key hfgNodup
  by_cases hE : (keysAt c item.Frequency).erase key = []
  · by_cases hMF : c.minFreq = item.Frequency
    · have hmf : (upgradeItem c item key).minFreq = item.Frequency + 1 := by
        rw [upgradeItem_eq_A1 hE hMF]
      constructor
      · rw [hmf, hK (item.Frequency + 1), if_pos rfl]
        exact baddKey_ne_nil _ _
      · intro g hg
        rw [hK g] at hg
        rw [hmf]
        by_cases hg1 : g = item.Frequency + 1
        · exact hg1 ▸ le_refl _
        · rw [if_neg hg1] at hg
          by_cases hg2 : g = item.Frequency
          · rw [if_pos hg2] at hg
            exact absurd hE hg
          · rw [if_neg hg2] at hg
            have hle : c.minFreq ≤ g := hMin.2 g hg
            rw [hMF] at hle
            exact Nat.succ_le_of_lt (lt_of_le_of_ne hle (fun h => hg2 h.symm))
    · have hmf : (upgradeItem c item key).minFreq = c.minFreq := by
        rw [upgradeItem_eq_A2 hE hMF]
      have hlt : c.minFreq < item.Frequency := lt_of_le_of_ne hMinLe hMF
      constructor
      · rw [hmf, hK c.minFreq,
          if_neg (Nat.ne_of_lt (lt_trans hlt (Nat.lt_succ_self _))), if_neg (Nat.ne_of_lt hlt)]
        exact hMin.1
      · intro g hg
        rw [hK g] at hg
        rw [hmf]
        by_cases hg1 : g = item.Frequency + 1
        · exact hg1 ▸ le_trans hMinLe (Nat.le_succ _)
        · rw [if_neg hg1] at hg
          by_cases hg2 : g = item.Frequency
          · rw [if_pos hg2] at hg
            exact absurd hE hg
          · rw [if_neg hg2] at hg
            exact hMin.2 g hg
  · have hmf : (upgradeItem c item key).minFreq = c.minFreq := by
      rw [upgradeItem_eq_B hE]
    constructor
    · rw [hmf, hK c.minFreq]
      by_cases hm1 : c.minFreq = item.Frequency + 1
      · rw [if_pos hm1]
        exact baddKey_ne_nil _ _
      · rw [if_neg hm1]
        by_cases hm2 : c.minFreq = item.Frequency
        · rw [if_pos hm2]
          exact hE
        · rw [if_neg hm2]
          exact hMin.1
    · intro g hg
      rw [hK g] at hg
      rw [hmf]
      by_cases hg1 : g = item.Frequency + 1
      · exact hg1 ▸ le_trans hMinLe (Nat.le_succ _)
      · rw [if_neg hg1] at hg
        by_cases hg2 : g = item.Frequency
        · exact hg2 ▸ hMinLe
        · rw [if_neg hg2] at hg
          exact hMin.2 g hg

/-- `Inv0` is preserved by `upgradeItem` whenever, at entry, `key` sits in
exactly the bucket `item.Frequency` and everything else is consistent.
(The `items` map need not contain `key` yet: `upgradeItem` stores it.) -/
theorem upgradeItem_inv0 {V : Type} {c : InMemoryCache V} {item : Item V} {key : String}
    (hItems : (c.items.map Prod.fst).Nodup)
    (hfgNodup : (c.freqGroup.map Prod.fst).Nodup)
    (hbNodup : ∀ f b, alookup f c.freqGroup = some b → b.Nodup)
    (hNoEmpty : ∀ f b, alookup f c.freqGroup = some b → b ≠ [])
    (hKeyBucket : ∀ f, key ∈ keysAt c f ↔ f = item.Frequency)
    (hMemIff : ∀ k f, k ≠ key →
        (k ∈ keysAt c f ↔ ∃ i, alookup k c.items = some i ∧ i.Frequency = f))
    (hfreqPos : ∀ k i, alookup k c.items = some i → 1 ≤ i.Frequency)
    (hMin : keysAt c c.minFreq ≠ [] ∧ ∀ f, keysAt c f ≠ [] → c.minFreq ≤ f) :
    Inv0 (upgradeItem c item key) := by
  have hKeyB : key ∈ keysAt c item.Frequency := (hKeyBucket item.Frequency).2 rfl
  have hitems := upgradeItem_items c item key
  refine ⟨?_, upgradeItem_fgNodup item key hfgNodup,
    upgradeItem_bucketNodup item key hfgNodup hbNodup,
    upgradeItem_noEmpty item key hfgNodup hNoEmpty, ?_, ?_, ?_⟩
  · rw [hitems]
    exact nodup_fst_ainsert _ _ hItems
  · intro k g
    by_cases hk : k = key
    · subst hk
      rw [upgradeItem_mem_key hfgNodup hbNodup hKeyBucket g, hitems]
      constructor
      · intro hgf
        exact ⟨_, alookup_ainsert_self _ _ _, hgf.symm⟩
      · rintro ⟨i, hi, hf⟩
        rw [alookup_ainsert_self] at hi
        injection hi with hi
        rw [← hi] at hf
        exact hf.symm
    · rw [upgradeItem_mem_other hfgNodup hbNodup k g hk, hMemIff k g hk, hitems,
        alookup_ainsert_ne _ _ hk]
  · intro k i hi
    rw [hitems] at hi
    rcases alookup_ainsert_cases hi with ⟨hkk, rfl⟩ | ⟨hkk, hlook⟩
    · exact Nat.succ_le_succ (Nat.zero_le _)
    · exact hfreqPos k i hlook
  · intro _
    exact upgradeItem_minOk hfgNodup hKeyB hMin

/-- From the membership invariant, a key present in `items` is in exactly the
bucket of its stored frequency. -/
theorem keyBucket_of_memIff {V : Type} {c : InMemoryCache V} {key : String} {i0 : Item V}
    (hmem : ∀ k f, k ∈ keysAt c f ↔ ∃ i, alookup k c.items = some i ∧ i.Frequency = f)
    (hlook : alookup key c.items = some i0) :
    ∀ f, key ∈ keysAt c f ↔ f = i0.Frequency := by
  intro f
  rw [hmem key f]
  constructor
  · rintro ⟨i, hi, hf⟩
    rw [hlook] at hi
    injection hi with hi
    rw [← hi] at hf
    exact hf.symm
  · intro hf
    exact ⟨i0, hlook, hf.symm⟩

/-- Bumping a key that is present in `items` (the Set-overwrite, Get-hit and
Update-match call sites of `upgradeItem`) preserves `Inv0`. -/
theorem upgradeItem_inv0_existing {V : Type} {c : InMemoryCache V} {key : String} {i0 : Item V}
    (h : Inv0 c) (hlook : alookup key c.items = some i0) (item : Item V)
    (hfreq : item.Frequency = i0.Frequency) :
    Inv0 (upgradeItem c item key) := by
  have hne : c.items ≠ [] := by
    intro hnil
    rw [hnil] at hlook
    cases hlook
  refine upgradeItem_inv0 h.itemsNodup h.fgNodup h.bucketNodup h.noEmpty ?_
    (fun k f _ => h.memIff k f) h.freqPos (h.minOk hne)
  intro f
  rw [keyBucket_of_memIff h.memIff hlook f, hfreq]

/-! ### `findNewMinFreq`: the scan really computes the minimum bucket index -/

theorem step_eq_min (m f : Nat) : (if m > f then f else m) = min m f := by
  rcases le_or_lt m f with h | h
  · rw [if_neg (not_lt.2 h), min_eq_left h]
  · rw [if_pos h, min_eq_right (le_of_lt h)]

theorem foldl_min_facts (l : List (Nat × List String)) (init : Nat) :
    (l.foldl (fun minFreq p => if minFreq > p.1 then p.1 else minFreq) init ≤ init)
      ∧ (∀ p ∈ l, l.foldl (fun minFreq p => if minFreq > p.1 then p.1 else minFreq) init ≤ p.1)
      ∧ (l.foldl (fun minFreq p => if minFreq > p.1 then p.1 else minFreq) init = init
          ∨ l.foldl (fun minFreq p => if minFreq > p.1 then p.1 else minFreq) init
              ∈ l.map Prod.fst) := by
  induction l generalizing init with
  | nil => simp
  | cons q rest ih =>
    simp only [List.foldl_cons]
    rw [step_eq_min init q.1]
    obtain ⟨ih1, ih2, ih3⟩ := ih (min init q.1)
    refine ⟨le_trans ih1 (min_le_left _ _), ?_, ?_⟩
    · intro p hp
      rcases List.mem_cons.1 hp with rfl | hp
      · exact le_trans ih1 (min_le_right _ _)
      · exact ih2 p hp
    · rcases ih3 with heq | hmem
      · rcases le_total init q.1 with hle | hle
        · exact Or.inl (heq.trans (min_eq_left hle))
        · refine Or.inr ?_
          rw [heq.trans (min_eq_right hle), List.map_cons]
          exact List.mem_cons.2 (Or.inl rfl)
      · refine Or.inr ?_
        rw [List.map_cons]
        exact List.mem_cons.2 (Or.inr hmem)

theorem findNewMinFreq_spec {V : Type} {c : InMemoryCache V}
    (hsome : ∃ f, f ∈ c.freqGroup.map Prod.fst ∧ f ≤ maxUint64) :
    findNewMinFreq c ∈ c.freqGroup.map Prod.fst
      ∧ ∀ f ∈ c.freqGroup.map Prod.fst, findNewMinFreq c ≤ f := by
  obtain ⟨f0, hf0mem, hf0le⟩ := hsome
  obtain ⟨h1, h2, h3⟩ := foldl_min_facts c.freqGroup maxUint64
  have hle : ∀ f ∈ c.freqGroup.map Prod.fst, findNewMinFreq c ≤ f := by
    intro f hf
    obtain ⟨p, hp, hfp⟩ := List.mem_map.1 hf
    rw [← hfp]
    exact h2 p hp
  refine ⟨?_, hle⟩
  rcases h3 with heq | hmem
  · have hup : findNewMinFreq c ≤ f0 := hle f0 hf0mem
    have heq0 : f0 = findNewMinFreq c := by
      unfold findNewMinFreq at *
      omega
    rw [← heq0]
    exact hf0mem
  · exact hmem

/-! ### Removing a present key (Delete, eviction, sweeper all do this) -/

/-- The bucket map after removing `key` from the bucket at `f`
(dropping the bucket if it empties). -/
def eraseBucket {V : Type} (c : InMemoryCache V) (f : Nat) (key : String) :
    List (Nat × List String) :=
  if (keysAt c f).erase key = [] then aerase f c.freqGroup
  else ainsert f ((keysAt c f).erase key) c.freqGroup

/-- The cache after removing `key` (stored item `i`) from both `items` and
its frequency bucket, before any `minFreq` fixup. -/
def eraseState {V : Type} (c : InMemoryCache V) (i : Item V) (key : String) :
    InMemoryCache V :=
  { c with items := aerase key c.items, freqGroup := eraseBucket c i.Frequency key }

theorem keysAt_eraseBucket {V : Type} (c : InMemoryCache V) (f : Nat) (key : String)
    (hfgNodup : (c.freqGroup.map Prod.fst).Nodup) (g : Nat) :
    (alookup g (eraseBucket c f key)).getD []
      = if g = f then (keysAt c f).erase key else keysAt c g := by
  unfold eraseBucket
  by_cases hE : (keysAt c f).erase key = []
  · rw [if_pos hE]
    by_cases hg : g = f
    · subst hg
      rw [alookup_aerase_self _ _ hfgNodup, if_pos rfl, hE]
      rfl
    · rw [alookup_aerase_ne _ hg, if_neg hg]
      rfl
  · rw [if_neg hE]
    by_cases hg : g = f
    · subst hg
      rw [alookup_ainsert_self, if_pos rfl]
      rfl
    · rw [alookup_ainsert_ne _ _ hg, if_neg hg]
      rfl

theorem eraseBucket_fgNodup {V : Type} (c : InMemoryCache V) (f : Nat) (key : String)
    (hfgNodup : (c.freqGroup.map Prod.fst).Nodup) :
    ((eraseBucket c f key).map Prod.fst).Nodup := by
  unfold eraseBucket
  by_cases hE : (keysAt c f).erase key = []
  · rw [if_pos hE]; exact nodup_fst_aerase _ hfgNodup
  · rw [if_neg hE]; exact nodup_fst_ainsert _ _ hfgNodup

theorem eraseBucket_noEmpty {V : Type} (c : InMemoryCache V) (f : Nat) (key : String)
    (hfgNodup : (c.freqGroup.map Prod.fst).Nodup)
    (hNoEmpty : ∀ g b, alookup g c.freqGroup = some b → b ≠ []) :
    ∀ g b, alookup g (eraseBucket c f key) = some b → b ≠ [] := by
  intro g b hg
  unfold eraseBucket at hg
  by_cases hE : (keysAt c f).erase key = []
  · rw [if_pos hE] at hg
    exact hNoEmpty g b (alookup_aerase_cases hfgNodup hg).2
  · rw [if_neg hE] at hg
    rcases alookup_ainsert_cases hg with ⟨hfe, rfl⟩ | ⟨hne, hg2⟩
    · exact hE
    · exact hNoEmpty g b hg2

theorem eraseBucket_bucketNodup {V : Type} (c : InMemoryCache V) (f : Nat) (key : String)
    (hfgNodup : (c.freqGroup.map Prod.fst).Nodup)
    (hbNodup : ∀ g b, alookup g c.freqGroup = some b → b.Nodup) :
    ∀ g b, alookup g (eraseBucket c f key) = some b → b.Nodup := by
  intro g b hg
  have hkeys : (alookup g (eraseBucket c f key)).getD [] = b := by rw [hg]; rfl
  rw [keysAt_eraseBucket c f key hfgNodup g] at hkeys
  by_cases hgf : g = f
  · rw [if_pos hgf] at hkeys
    rw [← hkeys]
    exact (keysAt_nodup hbNodup _).erase _
  · rw [if_neg hgf] at hkeys
    rw [← hkeys]
    exact keysAt_nodup hbNodup g

theorem eraseState_memIff {V : Type} {c : InMemoryCache V} {i : Item V} {key : String}
    (hItems : (c.items.map Prod.fst).Nodup)
    (hfgNodup : (c.freqGroup.map Prod.fst).Nodup)
    (hbNodup : ∀ f b, alookup f c.freqGroup = some b → b.Nodup)
    (hMemIff : ∀ k g, k ∈ keysAt c g ↔ ∃ j, alookup k c.items = some j ∧ j.Frequency = g)
    (hlook : alookup key c.items = some i) :
    ∀ k g, k ∈ keysAt (eraseState c i key) g
      ↔ ∃ j, alookup k (eraseState c i key).items = some j ∧ j.Frequency = g := by
  intro k g
  have hks : keysAt (eraseState c i key) g = (alookup g (eraseBucket c i.Frequency key)).getD []
    := rfl
  have hitems : (eraseState c i key).items = aerase key c.items := rfl
  rw [hks, keysAt_eraseBucket c i.Frequency key hfgNodup g, hitems]
  by_cases hk : k = key
  · subst hk
    rw [alookup_aerase_self _ _ hItems]
    simp only [false_and, exists_false, iff_false, reduceCtorEq, exists_and_left]
    by_cases hgf : g = i.Frequency
    · rw [if_pos hgf]
      intro hmem
      exact absurd rfl (((keysAt_nodup hbNodup _).mem_erase_iff).1 hmem).1
    · rw [if_neg hgf]
      intro hmem
      exact hgf ((keyBucket_of_memIff hMemIff hlook g).1 hmem)
  · rw [alookup_aerase_ne _ hk]
    by_cases hgf : g = i.Frequency
    · rw [if_pos hgf, (keysAt_nodup hbNodup _).mem_erase_iff]
      rw [hgf, ← hMemIff k i.Frequency]
      simp [hk]
    · rw [if_neg hgf]
      exact hMemIff k g

/-- After a removal, recomputing `minFreq` with `findNewMinFreq` restores the
minimum property, provided stored frequencies do not exceed the sentinel. -/
theorem minOk_of_recompute {V : Type} {c' : InMemoryCache V}
    (hmem : ∀ k g, k ∈ keysAt c' g ↔ ∃ j, alookup k c'.items = some j ∧ j.Frequency = g)
    (hNoEmpty : ∀ f b, alookup f c'.freqGroup = some b → b ≠ [])
    (hnodup : (c'.items.map Prod.fst).Nodup)
    (hfreqLe : ∀ k j, alookup k c'.items = some j → j.Frequency ≤ maxUint64)
    (hne : c'.items ≠ []) :
    keysAt c' (findNewMinFreq c') ≠ [] ∧ ∀ f, keysAt c' f ≠ [] → findNewMinFreq c' ≤ f := by
  obtain ⟨p, hp⟩ := List.exists_mem_of_ne_nil _ hne
  have hlook : alookup p.1 c'.items = some p.2 := alookup_of_mem_nodup hnodup (by simpa using hp)
  have hmemb : p.1 ∈ keysAt c' p.2.Frequency := (hmem p.1 p.2.Frequency).2 ⟨p.2, hlook, rfl⟩
  have hksne : keysAt c' p.2.Frequency ≠ [] := List.ne_nil_of_mem hmemb
  have hmemfst : p.2.Frequency ∈ c'.freqGroup.map Prod.fst :=
    mem_fst_of_alookup (keysAt_eq_some hksne)
  obtain ⟨hmin_mem, hmin_le⟩ :=
    findNewMinFreq_spec ⟨p.2.Frequency, hmemfst, hfreqLe p.1 p.2 hlook⟩
  constructor
  · obtain ⟨b, hb⟩ := alookup_isSome_of_mem_fst hmin_mem
    have : keysAt c' (findNewMinFreq c') = b := by
      unfold keysAt; rw [hb]; rfl
    rw [this]
    exact hNoEmpty _ b hb
  · intro f hf
    exact hmin_le f (mem_fst_of_alookup (keysAt_eq_some hf))

/-! ### `Get`: characterization and invariant preservation -/

theorem Get_absent {V : Type} {c : InMemoryCache V} {now : Int} {key : String}
    (h : alookup key c.items = none) : Get c now key = (c, none) := by
  unfold Get
  rw [h]

theorem Get_expired {V : Type} {c : InMemoryCache V} {now : Int} {key : String} {i : Item V}
    (h : alookup key c.items = some i) (hexp : i.isExpired now = true) :
    Get c now key = (c, none) := by
  unfold Get
  rw [h]
  simp [hexp]

theorem Get_live {V : Type} {c : InMemoryCache V} {now : Int} {key : String} {i : Item V}
    (h : alookup key c.items = some i) (hexp : i.isExpired now = false) :
    Get c now key = (upgradeItem c i key, some i.Value) := by
  unfold Get
  rw [h]
  simp [hexp]

theorem Get_inv {V : Type} {n : Nat} {c : InMemoryCache V} (h : Inv n c) (now : Int)
    (key : String) : Inv (n + 1) (Get c now key).1 := by
  cases hl : alookup key c.items with
  | none =>
    rw [Get_absent hl]
    exact h.mono (Nat.le_succ n)
  | some i =>
    cases hexp : i.isExpired now with
    | true =>
      rw [Get_expired hl hexp]
      exact h.mono (Nat.le_succ n)
    | false =>
      rw [Get_live hl hexp]
      have h0 : Inv0 (upgradeItem c i key) := upgradeItem_inv0_existing h.toInv0 hl i rfl
      refine ⟨h0, ?_, ?_⟩
      · intro k j hj
        rw [upgradeItem_items] at hj
        rcases alookup_ainsert_cases hj with ⟨hkk, rfl⟩ | ⟨hkk, hlook⟩
        · exact Nat.succ_le_succ (h.freqLe key i hl)
        · exact le_trans (h.freqLe k j hlook) (Nat.le_succ n)
      · intro hs
        rw [(upgradeItem_fields c i key).1] at hs
        have hlen : (upgradeItem c i key).items.length = c.items.length := by
          rw [upgradeItem_items]
          exact length_ainsert_some _ _ hl
        rw [hlen, (upgradeItem_fields c i key).1]
        exact h.sizeBound hs

/-! ### `Delete`: characterization and invariant preservation -/

theorem Delete_absent {V : Type} {c : InMemoryCache V} {key : String}
    (h : alookup key c.items = none) : Delete c key = (c, false) := by
  unfold Delete
  rw [h]

theorem Delete_some_eq {V : Type} {c : InMemoryCache V} {key : String} {i : Item V}
    (h : alookup key c.items = some i) :
    Delete c key
      = if (keysAt c i.Frequency).erase key = [] ∧ c.minFreq = i.Frequency
        then ({ eraseState c i key with minFreq := findNewMinFreq (eraseState c i key) }, true)
        else (eraseState c i key, true) := by
  simp only [Delete, h]
  by_cases hE : (keysAt c i.Frequency).erase key = []
  · have hE1 : (keysAt { c with items := aerase key c.items } i.Frequency).erase key = [] := hE
    rw [deleteItemInGroup_eq_empty hE1]
    by_cases hMF : c.minFreq = i.Frequency
    · have hb : (c.minFreq == i.Frequency) = true := by simpa using hMF
      have hcond : (keysAt c i.Frequency).erase key = [] ∧ c.minFreq = i.Frequency := ⟨hE, hMF⟩
      rw [if_pos hcond]
      unfold eraseState eraseBucket
      rw [if_pos hE, hb]
      rfl
    · have hb : (c.minFreq == i.Frequency) = false := by simpa using hMF
      have hcond : ¬((keysAt c i.Frequency).erase key = [] ∧ c.minFreq = i.Frequency) :=
        fun hand => hMF hand.2
      rw [if_neg hcond]
      unfold eraseState eraseBucket
      rw [if_pos hE, hb]
      rfl
  · have hE1 : (keysAt { c with items := aerase key c.items } i.Frequency).erase key ≠ [] := hE
    rw [deleteItemInGroup_eq_kept hE1]
    have hcond : ¬((keysAt c i.Frequency).erase key = [] ∧ c.minFreq = i.Frequency) :=
      fun hand => hE hand.1
    rw [if_neg hcond]
    unfold eraseState eraseBucket
    rw [if_neg hE]
    rfl

theorem eraseState_inv0_parts {V : Type} {n : Nat} {c : InMemoryCache V} {i : Item V}
    {key : String}
    (hItems : (c.items.map Prod.fst).Nodup)
    (hfgNodup : (c.freqGroup.map Prod.fst).Nodup)
    (hbNodup : ∀ f b, alookup f c.freqGroup = some b → b.Nodup)
    (hNoEmpty : ∀ f b, alookup f c.freqGroup = some b → b ≠ [])
    (hMemIff : ∀ k g, k ∈ keysAt c g ↔ ∃ j, alookup k c.items = some j ∧ j.Frequency = g)
    (hfreqPos : ∀ k j, alookup k c.items = some j → 1 ≤ j.Frequency)
    (hfreqLe : ∀ k j, alookup k c.items = some j → j.Frequency ≤ n)
    (hl : alookup key c.items = some i) :
    ((eraseState c i key).items.map Prod.fst).Nodup
      ∧ ((eraseState c i key).freqGroup.map Prod.fst).Nodup
      ∧ (∀ f b, alookup f (eraseState c i key).freqGroup = some b → b.Nodup)
      ∧ (∀ f b, alookup f (eraseState c i key).freqGroup = some b → b ≠ [])
      ∧ (∀ k g, k ∈ keysAt (eraseState c i key) g
          ↔ ∃ j, alookup k (eraseState c i key).items = some j ∧ j.Frequency = g)
      ∧ (∀ k j, alookup k (eraseState c i key).items = some j → 1 ≤ j.Frequency)
      ∧ (∀ k j, alookup k (eraseState c i key).items = some j → j.Frequency ≤ n)
      ∧ (eraseState c i key).items.length + 1 = c.items.length := by
  have hitems : (eraseState c i key).items = aerase key c.items := rfl
  refine ⟨?_, eraseBucket_fgNodup c i.Frequency key hfgNodup,
    eraseBucket_bucketNodup c i.Frequency key hfgNodup hbNodup,
    eraseBucket_noEmpty c i.Frequency key hfgNodup hNoEmpty,
    eraseState_memIff hItems hfgNodup hbNodup hMemIff hl, ?_, ?_, ?_⟩
  · rw [hitems]
    exact nodup_fst_aerase _ hItems
  · intro k j hj
    rw [hitems] at hj
    exact hfreqPos k j (alookup_aerase_cases hItems hj).2
  · intro k j hj
    rw [hitems] at hj
    exact hfreqLe k j (alookup_aerase_cases hItems hj).2
  · rw [hitems]
    exact length_aerase_some key hl

theorem Delete_inv {V : Type} {n : Nat} {c : InMemoryCache V} (h : Inv n c)
    (hn : n ≤ maxUint64) (key : String) : Inv (n + 1) (Delete c key).1 := by
  cases hl : alookup key c.items with
  | none =>
    rw [Delete_absent hl]
    exact h.mono (Nat.le_succ n)
  | some i =>
    rw [Delete_some_eq hl]
    obtain ⟨h1, h2, h3, h4, h5, h6, h7, h8⟩ := eraseState_inv0_parts h.itemsNodup h.fgNodup
      h.bucketNodup h.noEmpty h.memIff h.freqPos h.freqLe hl
    have hminLe : c.minFreq ≤ i.Frequency := by
      have hKeyB : key ∈ keysAt c i.Frequency :=
        (keyBucket_of_memIff h.memIff hl i.Frequency).2 rfl
      have hne : c.items ≠ [] := by
        intro hnil
        rw [hnil] at hl
        cases hl
      exact (h.minOk hne).2 i.Frequency (List.ne_nil_of_mem hKeyB)
    have hfreqLe' : ∀ k j, alookup k (eraseState c i key).items = some j
        → j.Frequency ≤ maxUint64 := fun k j hj => le_trans (h7 k j hj) hn
    have hsize : (eraseState c i key).size = c.size := rfl
    have hKeysEq : ∀ g, keysAt (eraseState c i key) g
        = if g = i.Frequency then (keysAt c i.Frequency).erase key else keysAt c g :=
      fun g => keysAt_eraseBucket c i.Frequency key h.fgNodup g
    by_cases hcond : (keysAt c i.Frequency).erase key = [] ∧ c.minFreq = i.Frequency
    · rw [if_pos hcond]
      refine ⟨⟨h1, h2, h3, h4, h5, h6, ?_⟩,
        fun k j hj => le_trans (h7 k j hj) (Nat.le_succ n), ?_⟩
      · intro hne
        exact minOk_of_recompute h5 h4 h1 hfreqLe' hne
      · intro hs
        have : (eraseState c i key).items.length ≤ c.items.length := by omega
        calc ((eraseState c i key).items.length : Int)
            ≤ (c.items.length : Int) := by exact_mod_cast this
          _ ≤ c.size := h.sizeBound hs
    · rw [if_neg hcond]
      refine ⟨⟨h1, h2, h3, h4, h5, h6, ?_⟩,
        fun k j hj => le_trans (h7 k j hj) (Nat.le_succ n), ?_⟩
      · intro hne
        -- the bucket at the (unchanged) minFreq was not emptied
        have hmf : (eraseState c i key).minFreq = c.minFreq := rfl
        rw [hmf]
        have hcne : c.items ≠ [] := by
          intro hnil
          rw [hnil] at hl
          cases hl
        obtain ⟨hm1, hm2⟩ := h.minOk hcne
        constructor
        · rw [hKeysEq c.minFreq]
          by_cases hgf : c.minFreq = i.Frequency
          · rw [if_pos hgf]
            intro hEnil
            exact hcond ⟨hgf ▸ hEnil, hgf⟩
          · rw [if_neg hgf]
            exact hm1
        · intro g hg
          rw [hKeysEq g] at hg
          by_cases hgf : g = i.Frequency
          · exact hgf ▸ hminLe
          · rw [if_neg hgf] at hg
            exact hm2 g hg
      · intro hs
        have : (eraseState c i key).items.length ≤ c.items.length := by omega
        calc ((eraseState c i key).items.length : Int)
            ≤ (c.items.length : Int) := by exact_mod_cast this
          _ ≤ c.size := h.sizeBound hs

/-! ### `Set`: characterization and invariant preservation -/

theorem deleteItemInGroup_fst {V : Type} (c : InMemoryCache V) (i : Item V) (key : String) :
    (deleteItemInGroup c i key).1 = { c with freqGroup := eraseBucket c i.Frequency key } := by
  by_cases hE : (keysAt c i.Frequency).erase key = []
  · rw [deleteItemInGroup_eq_empty hE]
    unfold eraseBucket
    rw [if_pos hE]
  · rw [deleteItemInGroup_eq_kept hE]
    unfold eraseBucket
    rw [if_neg hE]

theorem Set_noop {V : Type} [Inhabited V] {c : InMemoryCache V} (h : c.size ≤ 0)
    (now : Int) (key : String) (value : V) (duration : Int) :
    Set c now key value duration = c := by
  unfold Set
  rw [if_pos h]

theorem Set_overwrite_eq {V : Type} [Inhabited V] {c : InMemoryCache V} {key : String}
    {old : Item V} (hs : ¬ c.size ≤ 0) (h : alookup key c.items = some old)
    (now : Int) (value : V) (duration : Int) :
    Set c now key value duration
      = upgradeItem c ⟨value, getExp c now duration, old.Frequency⟩ key := by
  simp only [Set, if_neg hs, h]

theorem Set_new_eq {V : Type} [Inhabited V] {c : InMemoryCache V} {key : String}
    (hs : ¬ c.size ≤ 0) (h : alookup key c.items = none)
    (now : Int) (value : V) (duration : Int) :
    Set c now key value duration
      = upgradeItem
          { evictIfFull c with
            freqGroup := ainsert 0 [key] (evictIfFull c).freqGroup, minFreq := 0 }
          ⟨value, getExp c now duration, 0⟩ key := by
  simp only [Set, if_neg hs, h]

theorem evictIfFull_notfull {V : Type} [Inhabited V] {c : InMemoryCache V}
    (h : ¬ c.size ≤ (c.items.length : Int)) : evictIfFull c = c := by
  unfold evictIfFull
  rw [if_neg h]

theorem evictIfFull_full {V : Type} [Inhabited V] {c : InMemoryCache V} {vd : String}
    {tl : List String} {iD : Item V}
    (hfull : c.size ≤ (c.items.length : Int))
    (hbucket : keysAt c c.minFreq = vd :: tl)
    (hlook : alookup vd c.items = some iD) :
    evictIfFull c = eraseState c iD vd := by
  simp only [evictIfFull, if_pos hfull, hbucket, hlook, Option.getD_some]
  rw [deleteItemInGroup_fst]
  rfl

/-- Inserting a fresh key: put it alone into bucket 0, set `minFreq := 0`, and
bump it; this preserves the structural invariant whenever the base state `cb`
(the store after a possible eviction) is consistent and lacks the key. -/
theorem setNew_inv0 {V : Type} {cb : InMemoryCache V} {key : String}
    (h1 : (cb.items.map Prod.fst).Nodup)
    (h2 : (cb.freqGroup.map Prod.fst).Nodup)
    (h3 : ∀ f b, alookup f cb.freqGroup = some b → b.Nodup)
    (h4 : ∀ f b, alookup f cb.freqGroup = some b → b ≠ [])
    (h5 : ∀ k g, k ∈ keysAt cb g ↔ ∃ j, alookup k cb.items = some j ∧ j.Frequency = g)
    (h6 : ∀ k j, alookup k cb.items = some j → 1 ≤ j.Frequency)
    (hkey : alookup key cb.items = none) (value : V) (exp : Int) :
    Inv0 (upgradeItem
      { cb with freqGroup := ainsert 0 [key] cb.freqGroup, minFreq := 0 }
      ⟨value, exp, 0⟩ key) := by
  have hKg : ∀ g,
      keysAt { cb with freqGroup := ainsert 0 [key] cb.freqGroup, minFreq := 0 } g
        = if g = 0 then [key] else keysAt cb g := by
    intro g
    by_cases hg : g = 0
    · subst hg
      show (alookup 0 (ainsert 0 [key] cb.freqGroup)).getD [] = _
      rw [alookup_ainsert_self, if_pos rfl]
      rfl
    · show (alookup g (ainsert 0 [key] cb.freqGroup)).getD [] = _
      rw [alookup_ainsert_ne _ _ hg, if_neg hg]
      rfl
  refine upgradeItem_inv0 h1 (nodup_fst_ainsert _ _ h2) ?_ ?_ ?_ ?_ h6 ?_
  · intro f b hb
    rcases alookup_ainsert_cases hb with ⟨h0, rfl⟩ | ⟨h0, hb2⟩
    · exact List.nodup_singleton _
    · exact h3 f b hb2
  · intro f b hb
    rcases alookup_ainsert_cases hb with ⟨h0, rfl⟩ | ⟨h0, hb2⟩
    · simp
    · exact h4 f b hb2
  · intro f
    rw [hKg f]
    by_cases hf : f = 0
    · subst hf
      simp
    · rw [if_neg hf]
      constructor
      · intro hmem
        obtain ⟨j, hj, _⟩ := (h5 key f).1 hmem
        rw [hkey] at hj
        cases hj
      · intro hf0
        exact absurd hf0 hf
  · intro k f hk
    rw [hKg f]
    by_cases hf : f = 0
    · subst hf
      rw [if_pos rfl]
      constructor
      · intro hmem
        exact absurd (List.mem_singleton.1 hmem) hk
      · rintro ⟨j, hj, hjf⟩
        have := h6 k j hj
        omega
    · rw [if_neg hf]
      exact h5 k f
  · constructor
    · show keysAt { cb with freqGroup := ainsert 0 [key] cb.freqGroup, minFreq := 0 } 0 ≠ []
      rw [hKg 0, if_pos rfl]
      simp
    · intro f _
      exact Nat.zero_le f

theorem Set_inv {V : Type} [Inhabited V] {n : Nat} {c : InMemoryCache V} (h : Inv n c)
    (now : Int) (key : String) (value : V) (duration : Int) :
    Inv (n + 1) (Set c now key value duration) := by
  by_cases hs : c.size ≤ 0
  · rw [Set_noop hs]
    exact h.mono (Nat.le_succ n)
  · cases hl : alookup key c.items with
    | some old =>
      rw [Set_overwrite_eq hs hl]
      have h0 := upgradeItem_inv0_existing h.toInv0 hl
        ⟨value, getExp c now duration, old.Frequency⟩ rfl
      refine ⟨h0, ?_, ?_⟩
      · intro k j hj
        rw [upgradeItem_items] at hj
        rcases alookup_ainsert_cases hj with ⟨hkk, rfl⟩ | ⟨hkk, hlook⟩
        · exact Nat.succ_le_succ (h.freqLe key old hl)
        · exact le_trans (h.freqLe k j hlook) (Nat.le_succ n)
      · intro hsz
        rw [(upgradeItem_fields _ _ _).1] at hsz
        have hlen : (upgradeItem c ⟨value, getExp c now duration, old.Frequency⟩ key).items.length
            = c.items.length := by
          rw [upgradeItem_items]
          exact length_ainsert_some _ _ hl
        rw [hlen, (upgradeItem_fields _ _ _).1]
        exact h.sizeBound hsz
    | none =>
      rw [Set_new_eq hs hl]
      by_cases hfull : c.size ≤ (c.items.length : Int)
      · have hlen0 : 0 < c.items.length := by
          have ha : (0 : Int) < c.size := not_le.1 hs
          have hb : (0 : Int) < (c.items.length : Int) := lt_of_lt_of_le ha hfull
          exact_mod_cast hb
        have hcne : c.items ≠ [] := List.length_pos.1 hlen0
        obtain ⟨hm1, hm2⟩ := h.minOk hcne
        cases hbk : keysAt c c.minFreq with
        | nil => exact absurd hbk hm1
        | cons vd tl =>
          have hvd : vd ∈ keysAt c c.minFreq := by
            rw [hbk]
            exact List.mem_cons_self _ _
          obtain ⟨iD, hiD, hiDf⟩ := (h.memIff vd c.minFreq).1 hvd
          rw [evictIfFull_full hfull hbk hiD]
          obtain ⟨e1, e2, e3, e4, e5, e6, e7, e8⟩ := eraseState_inv0_parts h.itemsNodup h.fgNodup
            h.bucketNodup h.noEmpty h.memIff h.freqPos h.freqLe hiD
          have hkey' : alookup key (eraseState c iD vd).items = none := by
            have hvk : key ≠ vd := by
              intro hh
              rw [← hh] at hiD
              rw [hl] at hiD
              cases hiD
            show alookup key (aerase vd c.items) = none
            rw [alookup_aerase_ne _ hvk]
            exact hl
          refine ⟨setNew_inv0 e1 e2 e3 e4 e5 e6 hkey' value (getExp c now duration), ?_, ?_⟩
          · intro k j hj
            rw [upgradeItem_items] at hj
            rcases alookup_ainsert_cases hj with ⟨hkk, rfl⟩ | ⟨hkk, hlook⟩
            · exact Nat.succ_le_succ (Nat.zero_le n)
            · exact le_trans (e7 k j hlook) (Nat.le_succ n)
          · intro hsz
            rw [(upgradeItem_fields _ _ _).1] at hsz
            have hlen : (upgradeItem
                { eraseState c iD vd with
                  freqGroup := ainsert 0 [key] (eraseState c iD vd).freqGroup, minFreq := 0 }
                ⟨value, getExp c now duration, 0⟩ key).items.length
                = (eraseState c iD vd).items.length + 1 := by
              rw [upgradeItem_items]
              exact length_ainsert_none _ _ hkey'
            rw [hlen, (upgradeItem_fields _ _ _).1]
            have hlenc : (eraseState c iD vd).items.length + 1 = c.items.length := e8
            have hcs := h.sizeBound hsz
            show ((eraseState c iD vd).items.length + 1 : Int) ≤ c.size
            omega
      · rw [evictIfFull_notfull hfull]
        refine ⟨setNew_inv0 h.itemsNodup h.fgNodup h.bucketNodup h.noEmpty h.memIff h.freqPos
          hl value (getExp c now duration), ?_, ?_⟩
        · intro k j hj
          rw [upgradeItem_items] at hj
          rcases alookup_ainsert_cases hj with ⟨hkk, rfl⟩ | ⟨hkk, hlook⟩
          · exact Nat.succ_le_succ (Nat.zero_le n)
          · exact le_trans (h.freqLe k j hlook) (Nat.le_succ n)
        · intro hsz
          rw [(upgradeItem_fields _ _ _).1] at hsz
          have hlen : (upgradeItem
              { c with freqGroup := ainsert 0 [key] c.freqGroup, minFreq := 0 }
              ⟨value, getExp c now duration, 0⟩ key).items.length
              = c.items.length + 1 := by
            rw [upgradeItem_items]
            exact length_ainsert_none _ _ hl
          rw [hlen, (upgradeItem_fields _ _ _).1]
          have hlt : (c.items.length : Int) < c.size := not_le.1 hfull
          show ((c.items.length + 1 : Nat) : Int) ≤ c.size
          push_cast
          omega

/-! ### `Update`: fold characterization and invariant preservation -/

/-- The body of `Update`'s range loop, folded over a snapshot of the entry
list with the precomputed expiration `exp`. -/
def updateFold {V : Type} (now exp : Int) (isUpdated : V → Bool) (update : V → V)
    (a : InMemoryCache V) (l : List (String × Item V)) : InMemoryCache V :=
  l.foldl
    (fun acc p =>
      if isUpdated p.2.Value && !(p.2.isExpired now) then
        upgradeItem acc { p.2 with Value := update p.2.Value, Expiration := exp } p.1
      else acc)
    a

theorem Update_eq {V : Type} (c : InMemoryCache V) (now : Int) (isUpdated : V → Bool)
    (update : V → V) (duration : Int) :
    Update c now isUpdated update duration
      = updateFold now (getExp c now duration) isUpdated update c c.items := rfl

theorem updateFold_spec {V : Type} (now exp : Int) (isUpdated : V → Bool) (update : V → V) :
    ∀ (l : List (String × Item V)) (a : InMemoryCache V),
      Inv0 a →
      (l.map Prod.fst).Nodup →
      (∀ p ∈ l, alookup p.1 a.items = some p.2) →
      Inv0 (updateFold now exp isUpdated update a l)
        ∧ (∀ k, k ∉ l.map Prod.fst
            → alookup k (updateFold now exp isUpdated update a l).items = alookup k a.items)
        ∧ (∀ p ∈ l, alookup p.1 (updateFold now exp isUpdated update a l).items
            = some (if isUpdated p.2.Value && !(p.2.isExpired now)
                then ⟨update p.2.Value, exp, p.2.Frequency + 1⟩ else p.2))
        ∧ (updateFold now exp isUpdated update a l).items.length = a.items.length
        ∧ (updateFold now exp isUpdated update a l).size = a.size
        ∧ (updateFold now exp isUpdated update a l).defaultExpiration = a.defaultExpiration
        ∧ (updateFold now exp isUpdated update a l).cleanupInterval = a.cleanupInterval := by
  intro l
  induction l with
  | nil =>
    intro a ha _ _
    exact ⟨ha, fun k _ => rfl, by simp, rfl, rfl, rfl, rfl⟩
  | cons q rest ih =>
    intro a ha hnd hsnap
    rw [List.map_cons, List.nodup_cons] at hnd
    have hlookq : alookup q.1 a.items = some q.2 := hsnap q (List.mem_cons_self _ _)
    by_cases hq : (isUpdated q.2.Value && !(q.2.isExpired now)) = true
    · have hstep : updateFold now exp isUpdated update a (q :: rest)
          = updateFold now exp isUpdated update
              (upgradeItem a { q.2 with Value := update q.2.Value, Expiration := exp } q.1)
              rest := by
        unfold updateFold
        rw [List.foldl_cons]
        congr 1
        show (if isUpdated q.2.Value && !(q.2.isExpired now) then _ else _) = _
        rw [if_pos hq]
      rw [hstep]
      have ha' : Inv0 (upgradeItem a { q.2 with Value := update q.2.Value, Expiration := exp }
          q.1) := upgradeItem_inv0_existing ha hlookq _ rfl
      have hitems' := upgradeItem_items a
        { q.2 with Value := update q.2.Value, Expiration := exp } q.1
      have hsnap' : ∀ p ∈ rest,
          alookup p.1 (upgradeItem a { q.2 with Value := update q.2.Value, Expiration := exp }
            q.1).items = some p.2 := by
        intro p hp
        have hmemp : p.1 ∈ List.map Prod.fst rest := List.mem_map.2 ⟨p, hp, rfl⟩
        have hpq : p.1 ≠ q.1 := by
          intro hh
          rw [hh] at hmemp
          exact hnd.1 hmemp
        rw [hitems', alookup_ainsert_ne _ _ hpq]
        exact hsnap p (List.mem_cons_of_mem _ hp)
      obtain ⟨ih0, ihout, ihin, ihlen, ihsz, ihde, ihci⟩ := ih _ ha' hnd.2 hsnap'
      have hkeyq : alookup q.1 (updateFold now exp isUpdated update
          (upgradeItem a { q.2 with Value := update q.2.Value, Expiration := exp } q.1)
          rest).items
          = some ⟨update q.2.Value, exp, q.2.Frequency + 1⟩ := by
        rw [ihout q.1 hnd.1, hitems']
        exact alookup_ainsert_self _ _ _
      refine ⟨ih0, ?_, ?_, ?_, ?_, ?_, ?_⟩
      · intro k hk
        rw [List.map_cons, List.mem_cons] at hk
        push_neg at hk
        rw [ihout k hk.2, hitems', alookup_ainsert_ne _ _ hk.1]
      · intro p hp
        rcases List.mem_cons.1 hp with rfl | hp
        · rw [if_pos hq]
          exact hkeyq
        · exact ihin p hp
      · rw [ihlen, hitems', length_ainsert_some _ _ hlookq]
      · rw [ihsz, (upgradeItem_fields _ _ _).1]
      · rw [ihde, (upgradeItem_fields _ _ _).2.1]
      · rw [ihci, (upgradeItem_fields _ _ _).2.2]
    · have hstep : updateFold now exp isUpdated update a (q :: rest)
          = updateFold now exp isUpdated update a rest := by
        unfold updateFold
        rw [List.foldl_cons]
        congr 1
        show (if isUpdated q.2.Value && !(q.2.isExpired now) then _ else _) = _
        rw [if_neg hq]
      rw [hstep]
      have hsnap' : ∀ p ∈ rest, alookup p.1 a.items = some p.2 :=
        fun p hp => hsnap p (List.mem_cons_of_mem _ hp)
      obtain ⟨ih0, ihout, ihin, ihlen, ihsz, ihde, ihci⟩ := ih _ ha hnd.2 hsnap'
      refine ⟨ih0, ?_, ?_, ihlen, ihsz, ihde, ihci⟩
      · intro k hk
        rw [List.map_cons, List.mem_cons] at hk
        push_neg at hk
        exact ihout k hk.2
      · intro p hp
        rcases List.mem_cons.1 hp with rfl | hp
        · rw [if_neg hq, ihout p.1 hnd.1]
          exact hlookq
        · exact ihin p hp

theorem Update_inv {V : Type} {n : Nat} {c : InMemoryCache V} (h : Inv n c) (now : Int)
    (isUpdated : V → Bool) (update : V → V) (duration : Int) :
    Inv (n + 1) (Update c now isUpdated update duration) := by
  rw [Update_eq]
  obtain ⟨ih0, ihout, ihin, ihlen, ihsz, _, _⟩ :=
    updateFold_spec now (getExp c now duration) isUpdated update c.items c h.toInv0
      h.itemsNodup (fun p hp => alookup_of_mem_nodup h.itemsNodup hp)
  refine ⟨ih0, ?_, ?_⟩
  · intro k j hj
    by_cases hk : k ∈ c.items.map Prod.fst
    · obtain ⟨j0, hj0⟩ := alookup_isSome_of_mem_fst hk
      have hpmem : (k, j0) ∈ c.items := alookup_mem hj0
      have := ihin (k, j0) hpmem
      rw [hj] at this
      injection this with this
      by_cases hcond : (isUpdated j0.Value && !(j0.isExpired now)) = true
      · rw [if_pos hcond] at this
        subst this
        exact Nat.succ_le_succ (h.freqLe k j0 hj0)
      · rw [if_neg hcond] at this
        subst this
        exact le_trans (h.freqLe k _ hj0) (Nat.le_succ n)
    · rw [ihout k hk] at hj
      exact le_trans (h.freqLe k j hj) (Nat.le_succ n)
  · intro hsz
    rw [ihsz] at hsz
    rw [ihlen, ihsz]
    exact h.sizeBound hsz

/-! ### The sweeper tick: fold characterization and invariant preservation -/

/-- Removing a present key whose removal does not empty the minimum bucket
keeps `minFreq` the least nonempty bucket index. -/
theorem eraseState_minOk {V : Type} {c : InMemoryCache V} {i : Item V} {key : String}
    (hfgNodup : (c.freqGroup.map Prod.fst).Nodup)
    (hKeyB : key ∈ keysAt c i.Frequency)
    (hMin : keysAt c c.minFreq ≠ [] ∧ ∀ f, keysAt c f ≠ [] → c.minFreq ≤ f)
    (hflag : ¬((keysAt c i.Frequency).erase key = [] ∧ c.minFreq = i.Frequency)) :
    keysAt (eraseState c i key) (eraseState c i key).minFreq ≠ []
      ∧ ∀ f, keysAt (eraseState c i key) f ≠ [] → (eraseState c i key).minFreq ≤ f := by
  have hKeysEq : ∀ g, keysAt (eraseState c i key) g
      = if g = i.Frequency then (keysAt c i.Frequency).erase key else keysAt c g :=
    fun g => keysAt_eraseBucket c i.Frequency key hfgNodup g
  have hminLe : c.minFreq ≤ i.Frequency := hMin.2 _ (List.ne_nil_of_mem hKeyB)
  have hmf : (eraseState c i key).minFreq = c.minFreq := rfl
  constructor
  · rw [hmf, hKeysEq c.minFreq]
    by_cases hgf : c.minFreq = i.Frequency
    · rw [if_pos hgf]
      intro hEnil
      exact hflag ⟨hEnil, hgf⟩
    · rw [if_neg hgf]
      exact hMin.1
  · intro g hg
    rw [hKeysEq g] at hg
    rw [hmf]
    by_cases hgf : g = i.Frequency
    · exact hgf ▸ hminLe
    · rw [if_neg hgf] at hg
      exact hMin.2 g hg

/-- The body of `startGC`'s per-tick scan, folded over a snapshot of the
entry list. -/
def sweepFold {V : Type} (now : Int) (a : InMemoryCache V × Bool)
    (l : List (String × Item V)) : InMemoryCache V × Bool :=
  l.foldl
    (fun (acc : InMemoryCache V × Bool) p =>
      if p.2.isExpired now then
        let c1 : InMemoryCache V := { acc.1 with items := aerase p.1 acc.1.items }
        let r := deleteItemInGroup c1 p.2 p.1
        (r.1, r.2 || acc.2)
      else acc)
    a

theorem sweepTick_eq {V : Type} (c : InMemoryCache V) (now : Int) :
    sweepTick c now
      = if (sweepFold now (c, false) c.items).2
        then { (sweepFold now (c, false) c.items).1
               with minFreq := findNewMinFreq (sweepFold now (c, false) c.items).1 }
        else (sweepFold now (c, false) c.items).1 := rfl

theorem sweepFold_cons_live {V : Type} (now : Int) (a : InMemoryCache V × Bool)
    (q : String × Item V) (l : List (String × Item V)) (hq : q.2.isExpired now = false) :
    sweepFold now a (q :: l) = sweepFold now a l := by
  unfold sweepFold
  rw [List.foldl_cons]
  congr 1
  show (if q.2.isExpired now then _ else _) = _
  rw [hq]
  rfl

theorem sweepFold_cons_expired_empty {V : Type} (now : Int) (a : InMemoryCache V × Bool)
    (q : String × Item V) (l : List (String × Item V)) (hq : q.2.isExpired now = true)
    (hE : (keysAt a.1 q.2.Frequency).erase q.1 = []) :
    sweepFold now a (q :: l)
      = sweepFold now
          (eraseState a.1 q.2 q.1, (a.1.minFreq == q.2.Frequency) || a.2) l := by
  unfold sweepFold
  rw [List.foldl_cons]
  congr 1
  show (if q.2.isExpired now then _ else _) = _
  rw [hq]
  show ((deleteItemInGroup { a.1 with items := aerase q.1 a.1.items } q.2 q.1).1,
        (deleteItemInGroup { a.1 with items := aerase q.1 a.1.items } q.2 q.1).2 || a.2) = _
  rw [deleteItemInGroup_eq_empty
    (show (keysAt { a.1 with items := aerase q.1 a.1.items } q.2.Frequency).erase q.1 = []
      from hE)]
  unfold eraseState eraseBucket
  rw [if_pos hE]

theorem sweepFold_cons_expired_kept {V : Type} (now : Int) (a : InMemoryCache V × Bool)
    (q : String × Item V) (l : List (String × Item V)) (hq : q.2.isExpired now = true)
    (hE : (keysAt a.1 q.2.Frequency).erase q.1 ≠ []) :
    sweepFold now a (q :: l) = sweepFold now (eraseState a.1 q.2 q.1, a.2) l := by
  unfold sweepFold
  rw [List.foldl_cons]
  congr 1
  show (if q.2.isExpired now then _ else _) = _
  rw [hq]
  show ((deleteItemInGroup { a.1 with items := aerase q.1 a.1.items } q.2 q.1).1,
        (deleteItemInGroup { a.1 with items := aerase q.1 a.1.items } q.2 q.1).2 || a.2) = _
  rw [deleteItemInGroup_eq_kept
    (show (keysAt { a.1 with items := aerase q.1 a.1.items } q.2.Frequency).erase q.1 ≠ []
      from hE)]
  unfold eraseState eraseBucket
  rw [if_neg hE, Bool.false_or]
  rfl

theorem sweepFold_spec {V : Type} (now : Int) {n : Nat} :
    ∀ (l : List (String × Item V)) (a : InMemoryCache V × Bool),
      (a.1.items.map Prod.fst).Nodup →
      (a.1.freqGroup.map Prod.fst).Nodup →
      (∀ f b, alookup f a.1.freqGroup = some b → b.Nodup) →
      (∀ f b, alookup f a.1.freqGroup = some b → b ≠ []) →
      (∀ k g, k ∈ keysAt a.1 g ↔ ∃ j, alookup k a.1.items = some j ∧ j.Frequency = g) →
      (∀ k j, alookup k a.1.items = some j → 1 ≤ j.Frequency) →
      (∀ k j, alookup k a.1.items = some j → j.Frequency ≤ n) →
      (l.map Prod.fst).Nodup →
      (∀ p ∈ l, alookup p.1 a.1.items = some p.2) →
      (a.2 = false → a.1.items ≠ []
          → keysAt a.1 a.1.minFreq ≠ [] ∧ ∀ f, keysAt a.1 f ≠ [] → a.1.minFreq ≤ f) →
      ((sweepFold now a l).1.items.map Prod.fst).Nodup
        ∧ ((sweepFold now a l).1.freqGroup.map Prod.fst).Nodup
        ∧ (∀ f b, alookup f (sweepFold now a l).1.freqGroup = some b → b.Nodup)
        ∧ (∀ f b, alookup f (sweepFold now a l).1.freqGroup = some b → b ≠ [])
        ∧ (∀ k g, k ∈ keysAt (sweepFold now a l).1 g
            ↔ ∃ j, alookup k (sweepFold now a l).1.items = some j ∧ j.Frequency = g)
        ∧ (∀ k j, alookup k (sweepFold now a l).1.items = some j → 1 ≤ j.Frequency)
        ∧ (∀ k j, alookup k (sweepFold now a l).1.items = some j → j.Frequency ≤ n)
        ∧ ((sweepFold now a l).2 = false → (sweepFold now a l).1.items ≠ []
            → keysAt (sweepFold now a l).1 (sweepFold now a l).1.minFreq ≠ []
              ∧ ∀ f, keysAt (sweepFold now a l).1 f ≠ []
                  → (sweepFold now a l).1.minFreq ≤ f)
        ∧ (∀ k, alookup k (sweepFold now a l).1.items = alookup k a.1.items
            ∨ alookup k (sweepFold now a l).1.items = none)
        ∧ (sweepFold now a l).1.items.length ≤ a.1.items.length
        ∧ (sweepFold now a l).1.size = a.1.size
        ∧ (sweepFold now a l).1.defaultExpiration = a.1.defaultExpiration
        ∧ (sweepFold now a l).1.cleanupInterval = a.1.cleanupInterval := by
  intro l
  induction l with
  | nil =>
    intro a h1 h2 h3 h4 h5 h6 h7 _ _ hmin
    exact ⟨h1, h2, h3, h4, h5, h6, h7, hmin, fun k => Or.inl rfl, le_refl _, rfl, rfl, rfl⟩
  | cons q rest ih =>
    intro a h1 h2 h3 h4 h5 h6 h7 hnd hsnap hmin
    rw [List.map_cons, List.nodup_cons] at hnd
    have hsnapq : alookup q.1 a.1.items = some q.2 := hsnap q (List.mem_cons_self _ _)
    have hane : a.1.items ≠ [] := by
      intro hnil
      rw [hnil] at hsnapq
      cases hsnapq
    cases hq : q.2.isExpired now with
    | false =>
      rw [sweepFold_cons_live now a q rest hq]
      exact ih a h1 h2 h3 h4 h5 h6 h7 hnd.2
        (fun p hp => hsnap p (List.mem_cons_of_mem _ hp)) hmin
    | true =>
      have hKeyB : q.1 ∈ keysAt a.1 q.2.Frequency := (h5 q.1 q.2.Frequency).2 ⟨q.2, hsnapq, rfl⟩
      obtain ⟨e1, e2, e3, e4, e5, e6, e7, e8⟩ :=
        eraseState_inv0_parts h1 h2 h3 h4 h5 h6 h7 hsnapq
      have hsnap' : ∀ p ∈ rest, alookup p.1 (eraseState a.1 q.2 q.1).items = some p.2 := by
        intro p hp
        have hmemp : p.1 ∈ List.map Prod.fst rest := List.mem_map.2 ⟨p, hp, rfl⟩
        have hpq : p.1 ≠ q.1 := by
          intro hh
          rw [hh] at hmemp
          exact hnd.1 hmemp
        show alookup p.1 (aerase q.1 a.1.items) = some p.2
        rw [alookup_aerase_ne _ hpq]
        exact hsnap p (List.mem_cons_of_mem _ hp)
      have hfinish : ∀ (a2' : Bool),
          (a2' = false
            → keysAt (eraseState a.1 q.2 q.1) (eraseState a.1 q.2 q.1).minFreq ≠ []
              ∧ ∀ f, keysAt (eraseState a.1 q.2 q.1) f ≠ []
                  → (eraseState a.1 q.2 q.1).minFreq ≤ f) →
          ((sweepFold now (eraseState a.1 q.2 q.1, a2') rest).1.items.map Prod.fst).Nodup
            ∧ ((sweepFold now (eraseState a.1 q.2 q.1, a2') rest).1.freqGroup.map
                Prod.fst).Nodup
            ∧ (∀ f b, alookup f (sweepFold now (eraseState a.1 q.2 q.1, a2') rest).1.freqGroup
                = some b → b.Nodup)
            ∧ (∀ f b, alookup f (sweepFold now (eraseState a.1 q.2 q.1, a2') rest).1.freqGroup
                = some b → b ≠ [])
            ∧ (∀ k g, k ∈ keysAt (sweepFold now (eraseState a.1 q.2 q.1, a2') rest).1 g
                ↔ ∃ j, alookup k (sweepFold now (eraseState a.1 q.2 q.1, a2') rest).1.items
                    = some j ∧ j.Frequency = g)
            ∧ (∀ k j, alookup k (sweepFold now (eraseState a.1 q.2 q.1, a2') rest).1.items
                = some j → 1 ≤ j.Frequency)
            ∧ (∀ k j, alookup k (sweepFold now (eraseState a.1 q.2 q.1, a2') rest).1.items
                = some j → j.Frequency ≤ n)
            ∧ ((sweepFold now (eraseState a.1 q.2 q.1, a2') rest).2 = false
                → (sweepFold now (eraseState a.1 q.2 q.1, a2') rest).1.items ≠ []
                → keysAt (sweepFold now (eraseState a.1 q.2 q.1, a2') rest).1
                    (sweepFold now (eraseState a.1 q.2 q.1, a2') rest).1.minFreq ≠ []
                  ∧ ∀ f, keysAt (sweepFold now (eraseState a.1 q.2 q.1, a2') rest).1 f ≠ []
                      → (sweepFold now (eraseState a.1 q.2 q.1, a2') rest).1.minFreq ≤ f)
            ∧ (∀ k, alookup k (sweepFold now (eraseState a.1 q.2 q.1, a2') rest).1.items
                = alookup k a.1.items
                ∨ alookup k (sweepFold now (eraseState a.1 q.2 q.1, a2') rest).1.items = none)
            ∧ (sweepFold now (eraseState a.1 q.2 q.1, a2') rest).1.items.length
                ≤ a.1.items.length
            ∧ (sweepFold now (eraseState a.1 q.2 q.1, a2') rest).1.size = a.1.size
            ∧ (sweepFold now (eraseState a.1 q.2 q.1, a2') rest).1.defaultExpiration
                = a.1.defaultExpiration
            ∧ (sweepFold now (eraseState a.1 q.2 q.1, a2') rest).1.cleanupInterval
                = a.1.cleanupInterval := by
        intro a2' hmin'
        obtain ⟨i1, i2, i3, i4, i5, i6, i7, i8, i9, i10, i11, i12, i13⟩ :=
          ih (eraseState a.1 q.2 q.1, a2') e1 e2 e3 e4 e5 e6 e7 hnd.2 hsnap'
            (fun hf0 _ => hmin' hf0)
        refine ⟨i1, i2, i3, i4, i5, i6, i7, i8, ?_, ?_, i11, i12, i13⟩
        · intro k
          rcases i9 k with hsame | hnone
          · by_cases hk : k = q.1
            · subst hk
              refine Or.inr ?_
              rw [hsame]
              show alookup q.1 (aerase q.1 a.1.items) = none
              exact alookup_aerase_self _ _ h1
            · refine Or.inl ?_
              rw [hsame]
              show alookup k (aerase q.1 a.1.items) = alookup k a.1.items
              exact alookup_aerase_ne _ hk
          · exact Or.inr hnone
        · have he8 : (eraseState a.1 q.2 q.1).items.length + 1 = a.1.items.length := e8
          have i10' : (sweepFold now (eraseState a.1 q.2 q.1, a2') rest).1.items.length
              ≤ (eraseState a.1 q.2 q.1).items.length := i10
          omega
      by_cases hE : (keysAt a.1 q.2.Frequency).erase q.1 = []
      · rw [sweepFold_cons_expired_empty now a q rest hq hE]
        refine hfinish _ ?_
        intro hf0
        rw [Bool.or_eq_false_iff] at hf0
        have hMFne : a.1.minFreq ≠ q.2.Frequency := by
          intro hh
          rw [hh] at hf0
          simp at hf0
        exact eraseState_minOk h2 hKeyB (hmin hf0.2 hane) (fun hand => hMFne hand.2)
      · rw [sweepFold_cons_expired_kept now a q rest hq hE]
        refine hfinish _ ?_
        intro hf0
        exact eraseState_minOk h2 hKeyB (hmin hf0 hane) (fun hand => hE hand.1)

theorem sweepTick_inv {V : Type} {n : Nat} {c : InMemoryCache V} (h : Inv n c)
    (hn : n ≤ maxUint64) (now : Int) : Inv (n + 1) (sweepTick c now) := by
  obtain ⟨i1, i2, i3, i4, i5, i6, i7, i8, i9, i10, i11, i12, i13⟩ :=
    sweepFold_spec now (n := n) c.items (c, false) h.itemsNodup h.fgNodup h.bucketNodup
      h.noEmpty h.memIff h.freqPos h.freqLe h.itemsNodup
      (fun p hp => alookup_of_mem_nodup h.itemsNodup hp) (fun _ => h.minOk)
  have i10' : (sweepFold now (c, false) c.items).1.items.length ≤ c.items.length := i10
  have i11' : (sweepFold now (c, false) c.items).1.size = c.size := i11
  have hsb : 0 < (sweepFold now (c, false) c.items).1.size
      → ((sweepFold now (c, false) c.items).1.items.length : Int)
        ≤ (sweepFold now (c, false) c.items).1.size := by
    intro hs
    rw [i11'] at hs
    rw [i11']
    calc ((sweepFold now (c, false) c.items).1.items.length : Int)
        ≤ (c.items.length : Int) := by exact_mod_cast i10'
      _ ≤ c.size := h.sizeBound hs
  rw [sweepTick_eq]
  cases hflag : (sweepFold now (c, false) c.items).2 with
  | false =>
    rw [if_neg Bool.false_ne_true]
    exact ⟨⟨i1, i2, i3, i4, i5, i6, i8 hflag⟩,
      fun k j hj => le_trans (i7 k j hj) (Nat.le_succ n), hsb⟩
  | true =>
    rw [if_pos rfl]
    refine ⟨⟨i1, i2, i3, i4, i5, i6, ?_⟩,
      fun k j hj => le_trans (i7 k j hj) (Nat.le_succ n), hsb⟩
    intro hne
    exact minOk_of_recompute i5 i4 i1 (fun k j hj => le_trans (i7 k j hj) hn) hne

/-! ### The invariant holds in every reachable state -/

theorem applyOp_inv {V : Type} [Inhabited V] {n : Nat} {c : InMemoryCache V} (h : Inv n c)
    (hn : n ≤ maxUint64) (op : Op V) : Inv (n + 1) (applyOp c op) := by
  cases op with
  | set now key value duration => exact Set_inv h now key value duration
  | get now key => exact Get_inv h now key
  | delete key => exact Delete_inv h hn key
  | update now isUpdated update duration => exact Update_inv h now isUpdated update duration
  | sweep now => exact sweepTick_inv h hn now

theorem NewInMemoryCache_inv {V : Type} (size dE cI : Int) :
    Inv 0 (NewInMemoryCache V size dE cI) := by
  refine ⟨⟨?_, ?_, ?_, ?_, ?_, ?_, ?_⟩, ?_, ?_⟩
  · simp [NewInMemoryCache]
  · simp [NewInMemoryCache]
  · intro f b hb
    cases hb
  · intro f b hb
    cases hb
  · intro k g
    constructor
    · intro hmem
      simp [keysAt, NewInMemoryCache, alookup] at hmem
    · rintro ⟨j, hj, _⟩
      cases hj
  · intro k i hi
    cases hi
  · intro hne
    exact absurd rfl hne
  · intro k i hi
    cases hi
  · intro hs
    show ((0 : Nat) : Int) ≤ _
    simpa using le_of_lt hs

theorem run_inv {V : Type} [Inhabited V] :
    ∀ (ops : List (Op V)) (n : Nat) (c : InMemoryCache V), Inv n c
      → n + ops.length ≤ maxUint64 → Inv (n + ops.length) (run c ops) := by
  intro ops
  induction ops with
  | nil =>
    intro n c h _
    simpa using h
  | cons op rest ih =>
    intro n c h hlen
    have hl2 : n + (rest.length + 1) ≤ maxUint64 := by simpa using hlen
    have h1 : Inv (n + 1) (applyOp c op) := applyOp_inv h (by omega) op
    have h2 := ih (n + 1) (applyOp c op) h1 (by omega)
    have heq : n + (op :: rest).length = (n + 1) + rest.length := by
      simp [List.length_cons]
      omega
    rw [heq]
    exact h2

theorem reachable_inv {V : Type} [Inhabited V] (size dE cI : Int) (ops : List (Op V))
    (hlen : ops.length ≤ maxUint64) :
    Inv ops.length (run (NewInMemoryCache V size dE cI) ops) := by
  have h := run_inv ops 0 (NewInMemoryCache V size dE cI) (NewInMemoryCache_inv size dE cI)
    (by simpa using hlen)
  simpa using h

/-! ### The configuration fields never change -/

theorem foldl_cache_fields {V α : Type} (f : InMemoryCache V → α → InMemoryCache V)
    (hf : ∀ c x, (f c x).size = c.size ∧ (f c x).defaultExpiration = c.defaultExpiration
        ∧ (f c x).cleanupInterval = c.cleanupInterval) :
    ∀ (l : List α) (a : InMemoryCache V),
      (l.foldl f a).size = a.size ∧ (l.foldl f a).defaultExpiration = a.defaultExpiration
        ∧ (l.foldl f a).cleanupInterval = a.cleanupInterval := by
  intro l
  induction l with
  | nil => exact fun a => ⟨rfl, rfl, rfl⟩
  | cons q rest ih =>
    intro a
    rw [List.foldl_cons]
    obtain ⟨h1, h2, h3⟩ := ih (f a q)
    obtain ⟨g1, g2, g3⟩ := hf a q
    exact ⟨h1.trans g1, h2.trans g2, h3.trans g3⟩

theorem foldl_pair_fields {V α : Type} (f : InMemoryCache V × Bool → α → InMemoryCache V × Bool)
    (hf : ∀ c x, (f c x).1.size = c.1.size
        ∧ (f c x).1.defaultExpiration = c.1.defaultExpiration
        ∧ (f c x).1.cleanupInterval = c.1.cleanupInterval) :
    ∀ (l : List α) (a : InMemoryCache V × Bool),
      (l.foldl f a).1.size = a.1.size
        ∧ (l.foldl f a).1.defaultExpiration = a.1.defaultExpiration
        ∧ (l.foldl f a).1.cleanupInterval = a.1.cleanupInterval := by
  intro l
  induction l with
  | nil => exact fun a => ⟨rfl, rfl, rfl⟩
  | cons q rest ih =>
    intro a
    rw [List.foldl_cons]
    obtain ⟨h1, h2, h3⟩ := ih (f a q)
    obtain ⟨g1, g2, g3⟩ := hf a q
    exact ⟨h1.trans g1, h2.trans g2, h3.trans g3⟩

theorem evictIfFull_fields {V : Type} [Inhabited V] (c : InMemoryCache V) :
    (evictIfFull c).size = c.size
      ∧ (evictIfFull c).defaultExpiration = c.defaultExpiration
      ∧ (evictIfFull c).cleanupInterval = c.cleanupInterval := by
  by_cases hfull : c.size ≤ (c.items.length : Int)
  · cases hbk : keysAt c c.minFreq with
    | nil =>
      unfold evictIfFull
      rw [if_pos hfull, hbk]
      exact ⟨rfl, rfl, rfl⟩
    | cons vd tl =>
      have : evictIfFull c
          = { (deleteItemInGroup c ((alookup vd c.items).getD ⟨default, 0, 0⟩) vd).1 with
              items := aerase vd
                (deleteItemInGroup c ((alookup vd c.items).getD ⟨default, 0, 0⟩) vd).1.items }
          := by
        unfold evictIfFull
        rw [if_pos hfull, hbk]
      rw [this, deleteItemInGroup_fst]
      exact ⟨rfl, rfl, rfl⟩
  · rw [evictIfFull_notfull hfull]
    exact ⟨rfl, rfl, rfl⟩

theorem Set_fields {V : Type} [Inhabited V] (c : InMemoryCache V) (now : Int) (key : String)
    (value : V) (duration : Int) :
    (Set c now key value duration).size = c.size
      ∧ (Set c now key value duration).defaultExpiration = c.defaultExpiration
      ∧ (Set c now key value duration).cleanupInterval = c.cleanupInterval := by
  by_cases hs : c.size ≤ 0
  · rw [Set_noop hs]
    exact ⟨rfl, rfl, rfl⟩
  · cases hl : alookup key c.items with
    | some old =>
      rw [Set_overwrite_eq hs hl]
      exact upgradeItem_fields _ _ _
    | none =>
      rw [Set_new_eq hs hl]
      obtain ⟨g1, g2, g3⟩ := upgradeItem_fields
        { evictIfFull c with
          freqGroup := ainsert 0 [key] (evictIfFull c).freqGroup, minFreq := 0 }
        (⟨value, getExp c now duration, 0⟩ : Item V) key
      obtain ⟨e1, e2, e3⟩ := evictIfFull_fields c
      exact ⟨g1.trans e1, g2.trans e2, g3.trans e3⟩

theorem Get_fields {V : Type} (c : InMemoryCache V) (now : Int) (key : String) :
    (Get c now key).1.size = c.size
      ∧ (Get c now key).1.defaultExpiration = c.defaultExpiration
      ∧ (Get c now key).1.cleanupInterval = c.cleanupInterval := by
  cases hl : alookup key c.items with
  | none =>
    rw [Get_absent hl]
    exact ⟨rfl, rfl, rfl⟩
  | some i =>
    cases hexp : i.isExpired now with
    | true =>
      rw [Get_expired hl hexp]
      exact ⟨rfl, rfl, rfl⟩
    | false =>
      rw [Get_live hl hexp]
      exact upgradeItem_fields _ _ _

theorem Delete_fields {V : Type} (c : InMemoryCache V) (key : String) :
    (Delete c key).1.size = c.size
      ∧ (Delete c key).1.defaultExpiration = c.defaultExpiration
      ∧ (Delete c key).1.cleanupInterval = c.cleanupInterval := by
  cases hl : alookup key c.items with
  | none =>
    rw [Delete_absent hl]
    exact ⟨rfl, rfl, rfl⟩
  | some i =>
    rw [Delete_some_eq hl]
    by_cases hcond : (keysAt c i.Frequency).erase key = [] ∧ c.minFreq = i.Frequency
    · rw [if_pos hcond]
      exact ⟨rfl, rfl, rfl⟩
    · rw [if_neg hcond]
      exact ⟨rfl, rfl, rfl⟩

theorem Update_fields {V : Type} (c : InMemoryCache V) (now : Int) (isUpdated : V → Bool)
    (update : V → V) (duration : Int) :
    (Update c now isUpdated update duration).size = c.size
      ∧ (Update c now isUpdated update duration).defaultExpiration = c.defaultExpiration
      ∧ (Update c now isUpdated update duration).cleanupInterval = c.cleanupInterval := by
  rw [Update_eq]
  unfold updateFold
  refine foldl_cache_fields _ ?_ c.items c
  intro cc p
  by_cases hq : (isUpdated p.2.Value && !(p.2.isExpired now)) = true
  · rw [if_pos hq]
    exact upgradeItem_fields _ _ _
  · rw [if_neg hq]
    exact ⟨rfl, rfl, rfl⟩

theorem sweepTick_fields {V : Type} (c : InMemoryCache V) (now : Int) :
    (sweepTick c now).size = c.size
      ∧ (sweepTick c now).defaultExpiration = c.defaultExpiration
      ∧ (sweepTick c now).cleanupInterval = c.cleanupInterval := by
  have hfold : (sweepFold now (c, false) c.items).1.size = c.size
      ∧ (sweepFold now (c, false) c.items).1.defaultExpiration = c.defaultExpiration
      ∧ (sweepFold now (c, false) c.items).1.cleanupInterval = c.cleanupInterval := by
    unfold sweepFold
    refine foldl_pair_fields _ ?_ c.items (c, false)
    intro cc p
    by_cases hq : p.2.isExpired now = true
    · rw [if_pos hq]
      show (deleteItemInGroup { cc.1 with items := aerase p.1 cc.1.items } p.2 p.1).1.size
          = cc.1.size ∧ _
      rw [deleteItemInGroup_fst]
      exact ⟨rfl, rfl, rfl⟩
    · rw [if_neg hq]
      exact ⟨rfl, rfl, rfl⟩
  rw [sweepTick_eq]
  by_cases hflag : (sweepFold now (c, false) c.items).2 = true
  · rw [if_pos hflag]
    exact hfold
  · rw [if_neg hflag]
    exact hfold

theorem applyOp_fields {V : Type} [Inhabited V] (c : InMemoryCache V) (op : Op V) :
    (applyOp c op).size = c.size
      ∧ (applyOp c op).defaultExpiration = c.defaultExpiration
      ∧ (applyOp c op).cleanupInterval = c.cleanupInterval := by
  cases op with
  | set now key value duration => exact Set_fields c now key value duration
  | get now key => exact Get_fields c now key
  | delete key => exact Delete_fields c key
  | update now isUpdated update duration => exact Update_fields c now isUpdated update duration
  | sweep now => exact sweepTick_fields c now

theorem run_fields {V : Type} [Inhabited V] :
    ∀ (ops : List (Op V)) (c : InMemoryCache V),
      (run c ops).size = c.size
        ∧ (run c ops).defaultExpiration = c.defaultExpiration
        ∧ (run c ops).cleanupInterval = c.cleanupInterval := by
  intro ops
  induction ops with
  | nil => exact fun c => ⟨rfl, rfl, rfl⟩
  | cons op rest ih =>
    intro c
    obtain ⟨h1, h2, h3⟩ := ih (applyOp c op)
    obtain ⟨g1, g2, g3⟩ := applyOp_fields c op
    exact ⟨h1.trans g1, h2.trans g2, h3.trans g3⟩

/-! ### Lookup characterizations used by the claims -/

theorem alookup_aerase_none {K A : Type} [DecidableEq K] {k x : K} {l : List (K × A)}
    (h : alookup k l = none) : alookup k (aerase x l) = none := by
  rw [alookup_eq_none_iff] at h ⊢
  exact fun hmem => h (mem_fst_aerase hmem)

/-- A new key is stored by `Set` with the requested value, the computed
expiration, and frequency 1. -/
theorem Set_new_lookup_self {V : Type} [Inhabited V] {c : InMemoryCache V} {key : String}
    (hs : ¬ c.size ≤ 0) (hnew : alookup key c.items = none) (now : Int) (value : V)
    (duration : Int) :
    alookup key (Set c now key value duration).items
      = some ⟨value, getExp c now duration, 1⟩ := by
  rw [Set_new_eq hs hnew, upgradeItem_items]
  exact alookup_ainsert_self _ _ _

/-- An overwritten key keeps its frequency and gets bumped once. -/
theorem Set_overwrite_lookup_self {V : Type} [Inhabited V] {c : InMemoryCache V} {key : String}
    {old : Item V} (hs : ¬ c.size ≤ 0) (h : alookup key c.items = some old) (now : Int)
    (value : V) (duration : Int) :
    alookup key (Set c now key value duration).items
      = some ⟨value, getExp c now duration, old.Frequency + 1⟩ := by
  rw [Set_overwrite_eq hs h, upgradeItem_items]
  exact alookup_ainsert_self _ _ _

theorem Set_new_lookup_other {V : Type} [Inhabited V] {c : InMemoryCache V} {key : String}
    (hs : ¬ c.size ≤ 0) (hnew : alookup key c.items = none) (now : Int) (value : V)
    (duration : Int) {k' : String} (hk : k' ≠ key) :
    alookup k' (Set c now key value duration).items = alookup k' (evictIfFull c).items := by
  rw [Set_new_eq hs hnew, upgradeItem_items]
  exact alookup_ainsert_ne _ _ hk

theorem Delete_items {V : Type} {c : InMemoryCache V} {key : String} {i : Item V}
    (h : alookup key c.items = some i) :
    (Delete c key).1.items = aerase key c.items := by
  rw [Delete_some_eq h]
  by_cases hcond : (keysAt c i.Frequency).erase key = [] ∧ c.minFreq = i.Frequency
  · rw [if_pos hcond]
    rfl
  · rw [if_neg hcond]
    rfl

theorem sweepTick_items {V : Type} (c : InMemoryCache V) (now : Int) :
    (sweepTick c now).items = (sweepFold now (c, false) c.items).1.items := by
  rw [sweepTick_eq]
  by_cases hflag : (sweepFold now (c, false) c.items).2 = true
  · rw [if_pos hflag]
  · rw [if_neg hflag]

/-! ### Reachable states -/

/-- A cache state reachable from `NewInMemoryCache V size dE cI` by a finite
sequence of public operations and sweeper ticks.  The length bound `maxUint64`
keeps the unbounded-`Nat` frequency model and the wrapping `uint64` counter of
the source in agreement: within it neither can overflow, and the
`findNewMinFreq` sentinel is sound. -/
def Reachable {V : Type} [Inhabited V] (size dE cI : Int) (c : InMemoryCache V) : Prop :=
  ∃ ops : List (Op V), ops.length ≤ maxUint64 ∧ c = run (NewInMemoryCache V size dE cI) ops

theorem Reachable.inv {V : Type} [Inhabited V] {size dE cI : Int} {c : InMemoryCache V}
    (hr : Reachable size dE cI c) : ∃ n, n ≤ maxUint64 ∧ Inv n c := by
  obtain ⟨ops, hlen, rfl⟩ := hr
  exact ⟨ops.length, hlen, reachable_inv size dE cI ops hlen⟩

theorem Reachable.fields {V : Type} [Inhabited V] {size dE cI : Int} {c : InMemoryCache V}
    (hr : Reachable size dE cI c) :
    c.size = size ∧ c.defaultExpiration = dE ∧ c.cleanupInterval = cI := by
  obtain ⟨ops, _, rfl⟩ := hr
  exact run_fields ops (NewInMemoryCache V size dE cI)

theorem evictIfFull_full_nil {V : Type} [Inhabited V] {c : InMemoryCache V}
    (hfull : c.size ≤ (c.items.length : Int)) (hbk : keysAt c c.minFreq = []) :
    evictIfFull c = c := by
  unfold evictIfFull
  rw [if_pos hfull, hbk]

/-- No operation ever decreases the stored frequency of a key that stays in
the store; a single operation raises it by at most one. -/
theorem applyOp_freq_mono {V : Type} [Inhabited V] {n : Nat} {c : InMemoryCache V}
    (h : Inv n c) (op : Op V) (k : String) (i i' : Item V)
    (hi : alookup k c.items = some i) (hi' : alookup k (applyOp c op).items = some i') :
    i.Frequency ≤ i'.Frequency := by
  cases op with
  | set now key value duration =>
    have hi2 : alookup k (Set c now key value duration).items = some i' := hi'
    by_cases hs : c.size ≤ 0
    · rw [Set_noop hs, hi] at hi2
      injection hi2 with hi2
      rw [hi2]
    · cases hl : alookup key c.items with
      | some old =>
        rw [Set_overwrite_eq hs hl, upgradeItem_items] at hi2
        rcases alookup_ainsert_cases hi2 with ⟨hkk, rfl⟩ | ⟨hkk, hlook⟩
        · subst hkk
          rw [hl] at hi
          injection hi with hi
          rw [← hi]
          exact Nat.le_succ _
        · rw [hi] at hlook
          injection hlook with hlook
          rw [hlook]
      | none =>
        rw [Set_new_eq hs hl, upgradeItem_items] at hi2
        rcases alookup_ainsert_cases hi2 with ⟨hkk, rfl⟩ | ⟨hkk, hlook⟩
        · subst hkk
          rw [hl] at hi
          cases hi
        · have hlook2 : alookup k (evictIfFull c).items = some i' := hlook
          by_cases hfull : c.size ≤ (c.items.length : Int)
          · have hlen0 : 0 < c.items.length := by
              have ha : (0 : Int) < c.size := not_le.1 hs
              have hb : (0 : Int) < (c.items.length : Int) := lt_of_lt_of_le ha hfull
              exact_mod_cast hb
            have hcne : c.items ≠ [] := List.length_pos.1 hlen0
            obtain ⟨hm1, hm2⟩ := h.minOk hcne
            cases hbk : keysAt c c.minFreq with
            | nil => exact absurd hbk hm1
            | cons vd tl =>
              have hvd : vd ∈ keysAt c c.minFreq := by
                rw [hbk]
                exact List.mem_cons_self _ _
              obtain ⟨iD, hiD, _⟩ := (h.memIff vd c.minFreq).1 hvd
              rw [evictIfFull_full hfull hbk hiD] at hlook2
              have hlook3 : alookup k (aerase vd c.items) = some i' := hlook2
              have := (alookup_aerase_cases h.itemsNodup hlook3).2
              rw [hi] at this
              injection this with this
              rw [this]
          · rw [evictIfFull_notfull hfull, hi] at hlook2
            injection hlook2 with hlook2
            rw [hlook2]
  | get now key =>
    have hi2 : alookup k (Get c now key).1.items = some i' := hi'
    cases hl : alookup key c.items with
    | none =>
      rw [Get_absent hl] at hi2
      have hi3 : alookup k c.items = some i' := hi2
      rw [hi] at hi3
      injection hi3 with hi3
      rw [hi3]
    | some i0 =>
      cases hexp : i0.isExpired now with
      | true =>
        rw [Get_expired hl hexp] at hi2
        have hi3 : alookup k c.items = some i' := hi2
        rw [hi] at hi3
        injection hi3 with hi3
        rw [hi3]
      | false =>
        rw [Get_live hl hexp] at hi2
        have hi3 : alookup k (upgradeItem c i0 key).items = some i' := hi2
        rw [upgradeItem_items] at hi3
        rcases alookup_ainsert_cases hi3 with ⟨hkk, rfl⟩ | ⟨hkk, hlook⟩
        · subst hkk
          rw [hl] at hi
          injection hi with hi
          rw [← hi]
          exact Nat.le_succ _
        · rw [hi] at hlook
          injection hlook with hlook
          rw [hlook]
  | delete key =>
    have hi2 : alookup k (Delete c key).1.items = some i' := hi'
    cases hl : alookup key c.items with
    | none =>
      rw [Delete_absent hl] at hi2
      have hi3 : alookup k c.items = some i' := hi2
      rw [hi] at hi3
      injection hi3 with hi3
      rw [hi3]
    | some i0 =>
      rw [Delete_items hl] at hi2
      have := (alookup_aerase_cases h.itemsNodup hi2).2
      rw [hi] at this
      injection this with this
      rw [this]
  | update now isUpdated update duration =>
    obtain ⟨_, ihout, ihin, _, _, _, _⟩ :=
      updateFold_spec now (getExp c now duration) isUpdated update c.items c h.toInv0
        h.itemsNodup (fun p hp => alookup_of_mem_nodup h.itemsNodup hp)
    have hi2 : alookup k (updateFold now (getExp c now duration) isUpdated update c
        c.items).items = some i' := hi'
    have hpmem : (k, i) ∈ c.items := alookup_mem hi
    have hch := ihin (k, i) hpmem
    rw [hch] at hi2
    injection hi2 with hi2
    by_cases hcond : (isUpdated i.Value && !(i.isExpired now)) = true
    · rw [if_pos hcond] at hi2
      rw [← hi2]
      exact Nat.le_succ _
    · rw [if_neg hcond] at hi2
      rw [← hi2]
  | sweep now =>
    obtain ⟨_, _, _, _, _, _, _, _, i9, _, _, _, _⟩ :=
      sweepFold_spec now (n := n) c.items (c, false) h.itemsNodup h.fgNodup h.bucketNodup
        h.noEmpty h.memIff h.freqPos h.freqLe h.itemsNodup
        (fun p hp => alookup_of_mem_nodup h.itemsNodup hp) (fun _ => h.minOk)
    have hi2 : alookup k (sweepTick c now).items = some i' := hi'
    rw [sweepTick_items] at hi2
    rcases i9 k with hsame | hnone
    · rw [hsame] at hi2
      have hi3 : alookup k c.items = some i' := hi2
      rw [hi] at hi3
      injection hi3 with hi3
      rw [hi3]
    · rw [hnone] at hi2
      cases hi2

/-! ### The claims -/

/-- C1: Capacity bound — for every sequence of public operations (Set, Get,
Delete, Update, and sweeper ticks) on a cache constructed with capacity > 0,
after each operation the number of entries in the store is at most the
capacity. -/
theorem C1_capacity_bound (V : Type) [Inhabited V] (size dE cI : Int) (c : InMemoryCache V)
    (hr : Reachable size dE cI c) (hcap : 0 < size) :
    (c.items.length : Int) ≤ size := by
  obtain ⟨n, _, h⟩ := hr.inv
  obtain ⟨hsz, _, _⟩ := hr.fields
  rw [← hsz]
  refine h.sizeBound ?_
  rw [hsz]
  exact hcap

/-- C3: Minimum-frequency consistency — after every public operation, if the
entries map is non-empty then `minFreq` is the index of a non-empty bucket and
a lower bound of all non-empty bucket indices, i.e. the minimum over all
indices of non-empty frequency buckets. -/
theorem C3_min_frequency_consistency (V : Type) [Inhabited V] (size dE cI : Int)
    (c : InMemoryCache V) (hr : Reachable size dE cI c) (hne : c.items ≠ []) :
    keysAt c c.minFreq ≠ [] ∧ ∀ f, keysAt c f ≠ [] → c.minFreq ≤ f := by
  obtain ⟨n, _, h⟩ := hr.inv
  exact h.minOk hne

/-- C4: Bucket-membership consistency — after every public operation, every
key present in the entries map is a member of exactly the bucket whose index
equals that entry's current frequency and of no other bucket, and no stored
bucket is empty. -/
theorem C4_bucket_membership (V : Type) [Inhabited V] (size dE cI : Int)
    (c : InMemoryCache V) (hr : Reachable size dE cI c) :
    (∀ k i, alookup k c.items = some i → ∀ f, (k ∈ keysAt c f ↔ f = i.Frequency))
      ∧ (∀ f b, alookup f c.freqGroup = some b → b ≠ []) := by
  obtain ⟨n, _, h⟩ := hr.inv
  exact ⟨fun k i hk f => keyBucket_of_memIff h.memIff hk f, h.noEmpty⟩

/-- C10: Implicit invariant — after every public operation, every stored
entry has frequency at least 1, and no bucket 0 is present in the frequency
index (bucket 0 exists only transiently inside Set, which replaces it with a
fresh singleton before the immediate bump). -/
theorem C10_positive_frequency (V : Type) [Inhabited V] (size dE cI : Int)
    (c : InMemoryCache V) (hr : Reachable size dE cI c) :
    (∀ k i, alookup k c.items = some i → 1 ≤ i.Frequency)
      ∧ alookup 0 c.freqGroup = none := by
  obtain ⟨n, _, h⟩ := hr.inv
  refine ⟨h.freqPos, ?_⟩
  cases hb : alookup 0 c.freqGroup with
  | none => rfl
  | some b =>
    obtain ⟨x, hx⟩ := List.exists_mem_of_ne_nil _ (h.noEmpty 0 b hb)
    have hxk : x ∈ keysAt c 0 := by
      unfold keysAt
      rw [hb]
      simpa using hx
    obtain ⟨i, hi, hif⟩ := (h.memIff x 0).1 hxk
    have := h.freqPos x i hi
    omega

/-- C7: Get is read-mostly — Get on an absent key or an expired key returns
not-found and leaves the entire cache state unchanged (the expired entry is
not deleted and still occupies its slot); Get on a live key returns the value
and changes only that key's frequency (and bucket placement), never any
entry's value or expiration timestamp. -/
theorem C7_get_read_mostly (V : Type) (c : InMemoryCache V) (now : Int) (key : String) :
    (alookup key c.items = none → Get c now key = (c, none))
      ∧ (∀ i, alookup key c.items = some i → i.isExpired now = true →
          Get c now key = (c, none) ∧ alookup key (Get c now key).1.items = some i)
      ∧ (∀ i, alookup key c.items = some i → i.isExpired now = false →
          (Get c now key).2 = some i.Value
            ∧ alookup key (Get c now key).1.items
                = some ⟨i.Value, i.Expiration, i.Frequency + 1⟩
            ∧ (∀ k', k' ≠ key → alookup k' (Get c now key).1.items = alookup k' c.items)
            ∧ (Get c now key).1.size = c.size
            ∧ (Get c now key).1.defaultExpiration = c.defaultExpiration
            ∧ (Get c now key).1.cleanupInterval = c.cleanupInterval) := by
  refine ⟨fun hnone => Get_absent hnone, ?_, ?_⟩
  · intro i hi hexp
    refine ⟨Get_expired hi hexp, ?_⟩
    rw [Get_expired hi hexp]
    exact hi
  · intro i hi hexp
    rw [Get_live hi hexp]
    refine ⟨rfl, ?_, ?_, (upgradeItem_fields c i key).1, (upgradeItem_fields c i key).2.1,
      (upgradeItem_fields c i key).2.2⟩
    · show alookup key (upgradeItem c i key).items = _
      rw [upgradeItem_items]
      exact alookup_ainsert_self _ _ _
    · intro k' hk
      show alookup k' (upgradeItem c i key).items = _
      rw [upgradeItem_items]
      exact alookup_ainsert_ne _ _ hk

/-- C8: Delete semantics — Delete returns NotFound (modeled `false`) iff the
key is absent, in which case nothing is mutated; on a present key it removes
the key from the entries map and from every bucket, succeeds, and leaves
`minFreq` the minimum over the remaining non-empty bucket indices. -/
theorem C8_delete_semantics (V : Type) [Inhabited V] (size dE cI : Int)
    (c : InMemoryCache V) (hr : Reachable size dE cI c) (key : String) :
    ((Delete c key).2 = false ↔ alookup key c.items = none)
      ∧ (alookup key c.items = none → (Delete c key).1 = c)
      ∧ (∀ i, alookup key c.items = some i →
          (Delete c key).2 = true
            ∧ alookup key (Delete c key).1.items = none
            ∧ (∀ k', k' ≠ key → alookup k' (Delete c key).1.items = alookup k' c.items)
            ∧ (∀ f, key ∉ keysAt (Delete c key).1 f)
            ∧ ((Delete c key).1.items ≠ []
                → keysAt (Delete c key).1 (Delete c key).1.minFreq ≠ []
                  ∧ ∀ f, keysAt (Delete c key).1 f ≠ [] → (Delete c key).1.minFreq ≤ f)) := by
  obtain ⟨n, hn, h⟩ := hr.inv
  have hresInv : Inv (n + 1) (Delete c key).1 := Delete_inv h hn key
  have hflag : ∀ i, alookup key c.items = some i → (Delete c key).2 = true := by
    intro i hi
    rw [Delete_some_eq hi]
    by_cases hcond : (keysAt c i.Frequency).erase key = [] ∧ c.minFreq = i.Frequency
    · rw [if_pos hcond]
    · rw [if_neg hcond]
  refine ⟨⟨?_, ?_⟩, ?_, ?_⟩
  · intro hfalse
    cases hl : alookup key c.items with
    | none => rfl
    | some i =>
      rw [hflag i hl] at hfalse
      cases hfalse
  · intro hnone
    rw [Delete_absent hnone]
  · intro hnone
    rw [Delete_absent hnone]
  · intro i hi
    have hitems := Delete_items hi
    refine ⟨hflag i hi, ?_, ?_, ?_, hresInv.minOk⟩
    · rw [hitems]
      exact alookup_aerase_self _ _ h.itemsNodup
    · intro k' hk
      rw [hitems]
      exact alookup_aerase_ne _ hk
    · intro f hmem
      obtain ⟨j, hj, _⟩ := (hresInv.memIff key f).1 hmem
      rw [hitems, alookup_aerase_self _ _ h.itemsNodup] at hj
      cases hj

/-- C9: Update semantics — every stored entry that is live (not expired) and
matches the predicate has the mutator applied, its expiration refreshed to
`now + ttl` (or `now + defaultTTL` when `ttl ≤ 0`), and its frequency bumped
by 1; every entry that fails the predicate or is expired is left entirely
unchanged (expired entries are not deleted). -/
theorem C9_update_semantics (V : Type) [Inhabited V] (size dE cI : Int)
    (c : InMemoryCache V) (hr : Reachable size dE cI c) (now : Int) (isUpdated : V → Bool)
    (update : V → V) (duration : Int) :
    (duration ≤ 0 → getExp c now duration = now + c.defaultExpiration)
      ∧ (0 < duration → getExp c now duration = now + duration)
      ∧ (∀ key i, alookup key c.items = some i →
          (isUpdated i.Value = true → i.isExpired now = false →
            alookup key (Update c now isUpdated update duration).items
              = some ⟨update i.Value, getExp c now duration, i.Frequency + 1⟩)
          ∧ ((isUpdated i.Value = false ∨ i.isExpired now = true) →
              alookup key (Update c now isUpdated update duration).items = some i)) := by
  obtain ⟨n, hn, h⟩ := hr.inv
  obtain ⟨_, _, ihin, _, _, _, _⟩ :=
    updateFold_spec now (getExp c now duration) isUpdated update c.items c h.toInv0
      h.itemsNodup (fun p hp => alookup_of_mem_nodup h.itemsNodup hp)
  refine ⟨fun hd => ?_, fun hd => ?_, ?_⟩
  · unfold getExp
    rw [if_pos hd]
  · unfold getExp
    rw [if_neg (not_le.2 hd)]
  · intro key i hi
    have hpmem : (key, i) ∈ c.items := alookup_mem hi
    have hch := ihin (key, i) hpmem
    rw [Update_eq]
    constructor
    · intro hmatch hlive
      have hcond : (isUpdated i.Value && !(i.isExpired now)) = true := by
        rw [hmatch, hlive]
        rfl
      rw [hch, if_pos hcond]
    · intro hnomatch
      have hcond : ¬((isUpdated i.Value && !(i.isExpired now)) = true) := by
        rcases hnomatch with hm | he
        · rw [hm]
          simp
        · rw [he]
          simp
      rw [hch, if_neg hcond]

/-- C5: Frequency semantics — a new entry is created at frequency 0 and has
been bumped to exactly 1 by the time the creating Set returns; a
Set-overwrite preserves the current frequency and bumps it by exactly 1; a
successful Get bumps by exactly 1; an Update match bumps by exactly 1; and no
operation ever decreases the frequency of a key that remains in the store. -/
theorem C5_frequency_semantics (V : Type) [Inhabited V] (size dE cI : Int)
    (c : InMemoryCache V) (hr : Reachable size dE cI c) :
    (∀ now key value duration, 0 < c.size → alookup key c.items = none →
        alookup key (Set c now key value duration).items
          = some ⟨value, getExp c now duration, 1⟩)
      ∧ (∀ now key value duration old, 0 < c.size → alookup key c.items = some old →
          alookup key (Set c now key value duration).items
            = some ⟨value, getExp c now duration, old.Frequency + 1⟩)
      ∧ (∀ now key i, alookup key c.items = some i → i.isExpired now = false →
          alookup key (Get c now key).1.items
            = some ⟨i.Value, i.Expiration, i.Frequency + 1⟩)
      ∧ (∀ now isUpdated update duration key i, alookup key c.items = some i →
          isUpdated i.Value = true → i.isExpired now = false →
          alookup key (Update c now isUpdated update duration).items
            = some ⟨update i.Value, getExp c now duration, i.Frequency + 1⟩)
      ∧ (∀ op k i i', alookup k c.items = some i →
          alookup k (applyOp c op).items = some i' → i.Frequency ≤ i'.Frequency) := by
  obtain ⟨n, hn, h⟩ := hr.inv
  refine ⟨?_, ?_, ?_, ?_, ?_⟩
  · intro now key value duration hcap hnew
    exact Set_new_lookup_self (not_le.2 hcap) hnew now value duration
  · intro now key value duration old hcap hov
    exact Set_overwrite_lookup_self (not_le.2 hcap) hov now value duration
  · intro now key i hi hexp
    rw [Get_live hi hexp]
    show alookup key (upgradeItem c i key).items = _
    rw [upgradeItem_items]
    exact alookup_ainsert_self _ _ _
  · intro now isUpdated update duration key i hi hmatch hlive
    obtain ⟨_, _, ihin, _, _, _, _⟩ :=
      updateFold_spec now (getExp c now duration) isUpdated update c.items c h.toInv0
        h.itemsNodup (fun p hp => alookup_of_mem_nodup h.itemsNodup hp)
    have hch := ihin (key, i) (alookup_mem hi)
    have hcond : (isUpdated i.Value && !(i.isExpired now)) = true := by
      rw [hmatch, hlive]
      rfl
    rw [Update_eq, hch, if_pos hcond]
  · intro op k i i' hi hi'
    exact applyOp_freq_mono h op k i i' hi hi'

/-- C2: Eviction correctness — when Set inserts a key not currently present
while the store holds at least `capacity` entries, exactly one key is removed
before the insertion; that key was a member of the bucket at `minFreq`
immediately before its removal, and it ends up in neither the entries map nor
any frequency bucket, while all other keys are untouched and the new key is
inserted. -/
theorem C2_eviction_correctness (V : Type) [Inhabited V] (size dE cI : Int)
    (c : InMemoryCache V) (hr : Reachable size dE cI c)
    (now : Int) (key : String) (value : V) (duration : Int)
    (hcap : 0 < size)
    (hnew : alookup key c.items = none)
    (hfull : size ≤ (c.items.length : Int)) :
    ∃ victim,
      victim ∈ keysAt c c.minFreq
        ∧ victim ≠ key
        ∧ alookup victim (Set c now key value duration).items = none
        ∧ (∀ f, victim ∉ keysAt (Set c now key value duration) f)
        ∧ (∀ k', k' ≠ victim → k' ≠ key →
            alookup k' (Set c now key value duration).items = alookup k' c.items)
        ∧ alookup key (Set c now key value duration).items
            = some ⟨value, getExp c now duration, 1⟩
        ∧ (Set c now key value duration).items.length = c.items.length := by
  obtain ⟨n, hn, h⟩ := hr.inv
  obtain ⟨hsz, _, _⟩ := hr.fields
  have hcap' : 0 < c.size := by
    rw [hsz]
    exact hcap
  have hs : ¬ c.size ≤ 0 := not_le.2 hcap'
  have hfull' : c.size ≤ (c.items.length : Int) := by
    rw [hsz]
    exact hfull
  have hlen0 : 0 < c.items.length := by
    have hb : (0 : Int) < (c.items.length : Int) := lt_of_lt_of_le hcap' hfull'
    exact_mod_cast hb
  have hcne : c.items ≠ [] := List.length_pos.1 hlen0
  obtain ⟨hm1, hm2⟩ := h.minOk hcne
  cases hbk : keysAt c c.minFreq with
  | nil => exact absurd hbk hm1
  | cons vd tl =>
    have hvd : vd ∈ keysAt c c.minFreq := by
      rw [hbk]
      exact List.mem_cons_self _ _
    obtain ⟨iD, hiD, hiDf⟩ := (h.memIff vd c.minFreq).1 hvd
    have hvk : vd ≠ key := by
      intro hh
      rw [hh, hnew] at hiD
      cases hiD
    have hEq : evictIfFull c = eraseState c iD vd := evictIfFull_full hfull' hbk hiD
    refine ⟨vd, List.mem_cons_self _ _, hvk, ?_, ?_, ?_,
      Set_new_lookup_self hs hnew now value duration, ?_⟩
    · rw [Set_new_lookup_other hs hnew now value duration hvk, hEq]
      show alookup vd (aerase vd c.items) = none
      exact alookup_aerase_self _ _ h.itemsNodup
    · have hresInv : Inv (n + 1) (Set c now key value duration) :=
        Set_inv h now key value duration
      intro f hmem
      obtain ⟨j, hj, _⟩ := (hresInv.memIff vd f).1 hmem
      rw [Set_new_lookup_other hs hnew now value duration hvk, hEq] at hj
      have hj2 : alookup vd (aerase vd c.items) = some j := hj
      rw [alookup_aerase_self _ _ h.itemsNodup] at hj2
      cases hj2
    · intro k' hkv hkk
      rw [Set_new_lookup_other hs hnew now value duration hkk, hEq]
      show alookup k' (aerase vd c.items) = _
      exact alookup_aerase_ne _ hkv
    · rw [Set_new_eq hs hnew, upgradeItem_items]
      have hlook2 : alookup key
          ({ evictIfFull c with
              freqGroup := ainsert 0 [key] (evictIfFull c).freqGroup,
              minFreq := 0 } : InMemoryCache V).items = none := by
        show alookup key (evictIfFull c).items = none
        rw [hEq]
        show alookup key (aerase vd c.items) = none
        exact alookup_aerase_none hnew
      rw [length_ainsert_none _ _ hlook2]
      show (evictIfFull c).items.length + 1 = c.items.length
      rw [hEq]
      show (aerase vd c.items).length + 1 = c.items.length
      exact length_aerase_some vd hiD

/-- C6 counterexample: on a cache constructed with capacity 0, `Set` is a
silent no-op, so `Set(k, v, ttl)` with `ttl = 5 > 0` immediately followed by
`Get(k)` (at the very same instant) yields not-found rather than `(v, true)`:
the claim as stated, with no restriction on the capacity, is false. -/
theorem C6_roundtrip_counterexample :
    (Get (Set (NewInMemoryCache Nat 0 100 0) 0 "k" 7 5) 0 "k").2 ≠ some 7 := by
  decide

/-- C6 (amended): on a cache with capacity > 0, `Set(k, v, ttl)` with
`ttl > 0` immediately followed by `Get(k)` — no intervening operation, and
the read happening no later than the expiration `now + ttl` — returns
`(v, true)`. -/
theorem C6_roundtrip (V : Type) [Inhabited V] (c : InMemoryCache V) (hcap : 0 < c.size)
    (now now2 : Int) (key : String) (value : V) (ttl : Int) (httl : 0 < ttl)
    (hnow : now2 ≤ now + ttl) :
    (Get (Set c now key value ttl) now2 key).2 = some value := by
  have hs : ¬ c.size ≤ 0 := not_le.2 hcap
  have hexp : getExp c now ttl = now + ttl := by
    unfold getExp
    rw [if_neg (not_le.2 httl)]
  cases hl : alookup key c.items with
  | none =>
    have hlook := Set_new_lookup_self hs hl now value ttl
    rw [hexp] at hlook
    have hnotexp : (⟨value, now + ttl, 1⟩ : Item V).isExpired now2 = false := by
      unfold Item.isExpired
      exact decide_eq_false (not_lt.2 hnow)
    rw [Get_live hlook hnotexp]
  | some old =>
    have hlook := Set_overwrite_lookup_self hs hl now value ttl
    rw [hexp] at hlook
    have hnotexp : (⟨value, now + ttl, old.Frequency + 1⟩ : Item V).isExpired now2
        = false := by
      unfold Item.isExpired
      exact decide_eq_false (not_lt.2 hnow)
    rw [Get_live hlook hnotexp]

/-! ### Concrete witnesses

A small concrete run: capacity 2, defaultTTL 100, no sweeper; set `a`, set
`b`, then read `a`.  The resulting state has `a` at frequency 2 and `b` at
frequency 1, with `minFreq = 1`. -/

def wOps : List (Op Nat) := [Op.set 0 "a" 1 10, Op.set 0 "b" 2 10, Op.get 0 "a"]

def wC : InMemoryCache Nat := run (NewInMemoryCache Nat 2 100 0) wOps

theorem wC_reachable : Reachable 2 100 0 wC := ⟨wOps, by decide, rfl⟩

theorem C1_capacity_bound_witness : (wC.items.length : Int) ≤ 2 :=
  C1_capacity_bound Nat 2 100 0 wC wC_reachable (by decide)

theorem C2_eviction_correctness_witness :
    ∃ victim,
      victim ∈ keysAt wC wC.minFreq
        ∧ victim ≠ "c"
        ∧ alookup victim (Set wC 0 "c" 3 10).items = none
        ∧ (∀ f, victim ∉ keysAt (Set wC 0 "c" 3 10) f)
        ∧ (∀ k', k' ≠ victim → k' ≠ "c" →
            alookup k' (Set wC 0 "c" 3 10).items = alookup k' wC.items)
        ∧ alookup "c" (Set wC 0 "c" 3 10).items = some ⟨3, getExp wC 0 10, 1⟩
        ∧ (Set wC 0 "c" 3 10).items.length = wC.items.length :=
  C2_eviction_correctness Nat 2 100 0 wC wC_reachable 0 "c" 3 10 (by decide) (by decide)
    (by decide)

theorem C3_min_frequency_consistency_witness :
    keysAt wC wC.minFreq ≠ [] ∧ wC.minFreq ≤ 2 :=
  ⟨(C3_min_frequency_consistency Nat 2 100 0 wC wC_reachable (by decide)).1,
    (C3_min_frequency_consistency Nat 2 100 0 wC wC_reachable (by decide)).2 2 (by decide)⟩

theorem C4_bucket_membership_witness :
    ("a" ∈ keysAt wC 2 ↔ 2 = (⟨1, 10, 2⟩ : Item Nat).Frequency) ∧ ["b"] ≠ [] :=
  ⟨(C4_bucket_membership Nat 2 100 0 wC wC_reachable).1 "a" ⟨1, 10, 2⟩ (by decide) 2,
    (C4_bucket_membership Nat 2 100 0 wC wC_reachable).2 1 ["b"] (by decide)⟩

theorem C5_frequency_semantics_witness :
    alookup "c" (Set wC 0 "c" 7 5).items = some ⟨7, getExp wC 0 5, 1⟩
      ∧ alookup "a" (Get wC 0 "a").1.items = some ⟨1, 10, 3⟩ :=
  ⟨(C5_frequency_semantics Nat 2 100 0 wC wC_reachable).1 0 "c" 7 5 (by decide) (by decide),
    (C5_frequency_semantics Nat 2 100 0 wC wC_reachable).2.2.1 0 "a" ⟨1, 10, 2⟩ (by decide)
      (by decide)⟩

theorem C6_roundtrip_witness : (Get (Set wC 0 "k" 9 5) 5 "k").2 = some 9 :=
  C6_roundtrip Nat wC (by decide) 0 5 "k" 9 5 (by decide) (by decide)

theorem C7_get_read_mostly_witness :
    Get wC 20 "zz" = (wC, none)
      ∧ (Get wC 20 "a" = (wC, none) ∧ alookup "a" (Get wC 20 "a").1.items = some ⟨1, 10, 2⟩)
      ∧ ((Get wC 0 "b").2 = some 2
          ∧ alookup "b" (Get wC 0 "b").1.items = some ⟨2, 10, 2⟩) :=
  ⟨(C7_get_read_mostly Nat wC 20 "zz").1 (by decide),
    (C7_get_read_mostly Nat wC 20 "a").2.1 ⟨1, 10, 2⟩ (by decide) (by decide),
    ((C7_get_read_mostly Nat wC 0 "b").2.2 ⟨2, 10, 1⟩ (by decide) (by decide)).1,
    ((C7_get_read_mostly Nat wC 0 "b").2.2 ⟨2, 10, 1⟩ (by decide) (by decide)).2.1⟩

theorem C8_delete_semantics_witness :
    (Delete wC "zz").1 = wC
      ∧ (Delete wC "b").2 = true
      ∧ alookup "b" (Delete wC "b").1.items = none
      ∧ "b" ∉ keysAt (Delete wC "b").1 1 :=
  ⟨(C8_delete_semantics Nat 2 100 0 wC wC_reachable "zz").2.1 (by decide),
    ((C8_delete_semantics Nat 2 100 0 wC wC_reachable "b").2.2 ⟨2, 10, 1⟩ (by decide)).1,
    ((C8_delete_semantics Nat 2 100 0 wC wC_reachable "b").2.2 ⟨2, 10, 1⟩ (by decide)).2.1,
    ((C8_delete_semantics Nat 2 100 0 wC wC_reachable "b").2.2 ⟨2, 10, 1⟩
      (by decide)).2.2.2.1 1⟩

theorem C9_update_semantics_witness :
    getExp wC 0 0 = 0 + 100
      ∧ alookup "b" (Update wC 0 (fun v => v == 2) (fun v => v + 10) 0).items
          = some ⟨12, getExp wC 0 0, 2⟩
      ∧ alookup "a" (Update wC 0 (fun v => v == 2) (fun v => v + 10) 0).items
          = some ⟨1, 10, 2⟩ :=
  ⟨(C9_update_semantics Nat 2 100 0 wC wC_reachable 0 (fun v => v == 2) (fun v => v + 10)
      0).1 (by decide),
    ((C9_update_semantics Nat 2 100 0 wC wC_reachable 0 (fun v => v == 2) (fun v => v + 10)
      0).2.2 "b" ⟨2, 10, 1⟩ (by decide)).1 (by decide) (by decide),
    ((C9_update_semantics Nat 2 100 0 wC wC_reachable 0 (fun v => v == 2) (fun v => v + 10)
      0).2.2 "a" ⟨1, 10, 2⟩ (by decide)).2 (Or.inl (by decide))⟩

theorem C10_positive_frequency_witness :
    1 ≤ (⟨2, 10, 1⟩ : Item Nat).Frequency ∧ alookup 0 wC.freqGroup = none :=
  ⟨(C10_positive_frequency Nat 2 100 0 wC wC_reachable).1 "b" ⟨2, 10, 1⟩ (by decide),
    (C10_positive_frequency Nat 2 100 0 wC wC_reachable).2⟩

end LFU
